import Mathlib

/-!
Verification of the kithkit skills-catalog core against its specification.

The development shallowly embeds the TypeScript sources:

* the tar+gzip extractor `extractArchive` (install.ts) over byte lists, with
  the file system as an explicit write trace;
* the install orchestrator `installSkill`, the lifecycle functions
  `checkForUpdate` / `updateSkill`, and their metadata sidecar handling;
* the canonical-JSON serializer `canonicalJson` (`sortDeep` + `JSON.stringify`)
  over an inductive JSON model;
* the index builder `buildIndex` / `scanArchives` and the signing surface
  `signIndex` / `verifyIndex` / `verifySignedIndex`, with Ed25519 taken as an
  abstract sign/verify pair (node:crypto is external to the repository);
* the security scanner `checkSecurity` of the linter.

Machine integers do not overflow in any modelled routine (sizes are JS doubles
holding small integers), so numbers are `Nat`/`Int`; JS `NaN` from `parseInt`
is modelled as `Option`, and the byte-exact semantics of `Buffer.subarray`
(negative, end-relative indices) is reproduced.
-/

set_option maxHeartbeats 1600000
set_option maxRecDepth 16384

namespace Kithkit

/-- File-system path: a list of name components, each component a byte list. -/
abbrev PathC := List (List Nat)

/-- Bytes of an ASCII/latin-1 string, the byte-level image of a path component
or tar entry name.  (`.toString('utf8')` and this byte-per-char view agree on
every byte below 128, which covers all bytes the safety checks inspect.) -/
def strBytes (s : String) : List Nat := s.data.map Char.toNat

/-- Clamp a JS (possibly negative, hence end-relative) TypedArray index into
the range `[0, len]`, as `Buffer.subarray` does. -/
def clampIdx (len : Nat) (i : Int) : Nat :=
  if i < 0 then ((len : Int) + i).toNat else min i.toNat len

/-- Model of `Buffer.subarray(s, e)` (TypedArray semantics: negative indices
count from the end, and the result is empty when the clamped end does not
exceed the clamped start). -/
def jsSubarray (l : List Nat) (s e : Int) : List Nat :=
  (l.take (clampIdx l.length e)).drop (clampIdx l.length s)

/-- Strip the trailing run of NUL bytes: the byte-level image of
`.toString('utf8').replace(/\0+$/, '')`. -/
def stripTrailingZeros (l : List Nat) : List Nat :=
  (l.reverse.dropWhile (fun b => b == 0)).reverse

/-- ASCII whitespace bytes, the bytes `String.prototype.trim` removes that can
appear in a tar size field. -/
def isWsByte (b : Nat) : Bool := b == 32 || (decide (9 ≤ b) && decide (b ≤ 13))

/-- Byte-level `String.prototype.trim`. -/
def jsTrim (l : List Nat) : List Nat :=
  ((l.dropWhile isWsByte).reverse.dropWhile isWsByte).reverse

/-- Octal digit byte, '0'..'7'. -/
def isOctByte (b : Nat) : Bool := decide (48 ≤ b) && decide (b ≤ 55)

/-- Value of a list of octal digit bytes. -/
def octVal (ds : List Nat) : Nat := ds.foldl (fun a b => a * 8 + (b - 48)) 0

/-- Model of `parseInt(s, 8)` on a trimmed string: optional sign, then the
longest prefix of octal digits; `none` models `NaN` (no digits). -/
def parseOctInt (bs : List Nat) : Option Int :=
  let sr : Int × List Nat :=
    match bs with
    | [] => (1, [])
    | b :: r => if b = 45 then (-1, r) else if b = 43 then (1, r) else (1, b :: r)
  let ds := sr.2.takeWhile isOctByte
  if ds.isEmpty then none else some (sr.1 * (octVal ds : Int))

/-- Model of `parseInt(sizeStr || '0', 8)`: the empty size field reads as 0. -/
def parseSize (bs : List Nat) : Option Int :=
  if bs.isEmpty then some 0 else parseOctInt bs

/-- Model of `Math.ceil(s / 512)` on an integral JS number. -/
def ceilBlocks (s : Int) : Int :=
  if 0 ≤ s then ((s.toNat + 511) / 512 : Nat) else -(((-s).toNat / 512 : Nat) : Int)

/-- Model of `String.prototype.split('/')` at the byte level: separators are
dropped, empty pieces are kept, and the empty input yields one empty piece. -/
def splitByte (sep : Nat) : List Nat → List (List Nat)
  | [] => [[]]
  | b :: rest =>
    match splitByte sep rest with
    | [] => [[]]
    | c :: cs => if b == sep then [] :: c :: cs else (b :: c) :: cs

/-- Byte image of the string ".." rejected as a path component. -/
def dotdot : List Nat := [46, 46]

/-- Drop empty and "." components: the effect of path normalization on a
relative path that contains no ".." component. -/
def cleanParts (ps : List (List Nat)) : List (List Nat) :=
  ps.filter (fun c => !(c == [] || c == [46]))

/-- Model of `resolve(targetDir, relPath)` where `relPath` is `fileParts`
joined by '/' and free of ".." components, and `targetDir` is given as an
already-normalized absolute path.  A leading empty component makes the joined
path absolute, in which case the base directory is ignored. -/
def resolveParts (target : PathC) (fileParts : List (List Nat)) : PathC :=
  if fileParts.head? = some [] then cleanParts fileParts
  else target ++ cleanParts fileParts

/-- Abort kinds of `extractArchive`.  The three traversal constructors stand
for the three `throw new Error('Path traversal detected: ...')` sites; the
code has no other throw of its own.  `outOfFuel` is the model's marker for
executions the fuel bound cuts off (the source loop can fail to terminate on
adversarial size fields, so the model carries explicit fuel). -/
inductive ExtractErr where
  | absolutePath (name : List Nat)
  | dotdotComponent (name : List Nat)
  | escapesTarget (name : List Nat)
  | outOfFuel
deriving DecidableEq

/-- Whether an abort is one of the path-traversal rejections. -/
def ExtractErr.isTraversal : ExtractErr → Bool
  | .outOfFuel => false
  | _ => true

/-- Parsed tar header data, as the extraction loop reads it at one offset. -/
structure TarEntry where
  name : List Nat
  typeflag : List Nat
  size : Option Int
deriving DecidableEq

/-- A regular-file entry: type flag byte '0' or NUL/absent. -/
def TarEntry.isRegular (en : TarEntry) : Prop := en.typeflag = [] ∨ en.typeflag = [48]

instance (en : TarEntry) : Decidable en.isRegular := by unfold TarEntry.isRegular; infer_instance

/-- A name the extractor rejects: absolute, or with a ".." component. -/
def TarEntry.badNameP (en : TarEntry) : Prop :=
  en.name.head? = some 47 ∨ ∃ c ∈ splitByte 47 en.name, c = dotdot

instance (en : TarEntry) : Decidable en.badNameP := by unfold TarEntry.badNameP; infer_instance

/-- Offset advance past the data blocks of a skipped entry (source lines
guard the advance with `fileSize > 0`; `NaN > 0` is false). -/
def skipAdvance (off1 : Int) (fileSize : Option Int) : Int :=
  match fileSize with
  | some s => if 0 < s then off1 + ceilBlocks s * 512 else off1
  | none => off1

/-- One step of the extraction loop, classified.  `stop` covers loop exit
(short buffer or all-zero header); `skip` covers non-regular entries, empty
names and names whose stripped relative path is empty; `abort` covers the two
name rejections; `tryWrite` is a regular entry that reached the resolve-and-
containment check, carrying its would-be file content and the next offset
(`none` models the `NaN` size whose block advance ends the loop). -/
inductive StepAct where
  | stop
  | skip (en : TarEntry) (nextOff : Int)
  | abort (en : TarEntry) (e : ExtractErr)
  | tryWrite (en : TarEntry) (fileParts : List (List Nat)) (content : List Nat) (nextOff : Option Int)

/-- Strip the first path component when there is more than one, as the source
does with `parts.length > 1 ? parts.slice(1) : parts`. -/
def stripFirst (parts : List (List Nat)) : List (List Nat) :=
  if 1 < parts.length then parts.drop 1 else parts

/-- Header parsing and per-entry branching of `extractArchive`, lines 135–199
of install.ts, at one loop offset. -/
def stepAt (buf : List Nat) (offset : Int) : StepAct :=
  if ¬(offset + 512 ≤ (buf.length : Int)) then .stop
  else
    let header := jsSubarray buf offset (offset + 512)
    if header.all (fun b => b == 0) then .stop
    else
      let rawName := stripTrailingZeros (jsSubarray header 0 100)
      let sizeBytes := jsTrim (stripTrailingZeros (jsSubarray header 124 136))
      let tf := stripTrailingZeros (jsSubarray header 156 157)
      let fileSize := parseSize sizeBytes
      let en : TarEntry := ⟨rawName, tf, fileSize⟩
      let off1 := offset + 512
      if ¬(tf = [] ∨ tf = [48]) then .skip en (skipAdvance off1 fileSize)
      else if rawName = [] then .skip en (skipAdvance off1 fileSize)
      else if rawName.head? = some 47 then .abort en (.absolutePath rawName)
      else if (splitByte 47 rawName).any (fun c => c == dotdot) then .abort en (.dotdotComponent rawName)
      else
        let fileParts := stripFirst (splitByte 47 rawName)
        if fileParts = [] ∨ fileParts = [[]] then .skip en (skipAdvance off1 fileSize)
        else
          match fileSize with
          | none => .tryWrite en fileParts [] none
          | some s => .tryWrite en fileParts (jsSubarray buf off1 (off1 + s)) (some (off1 + ceilBlocks s * 512))

/-- Result of extraction: extracted output paths and the write trace, in
order; an abort carries the writes already performed before the throw. -/
abbrev ExtractRes := Except (ExtractErr × List (PathC × List Nat)) (List PathC × List (PathC × List Nat))

/-- The extraction loop of `extractArchive` (decompressed buffer to target
directory), accumulating extracted paths and the file writes performed. -/
def extractLoop (buf : List Nat) (target : PathC) :
    Nat → Int → List PathC → List (PathC × List Nat) → ExtractRes
  | 0, _, _, accW => .error (.outOfFuel, accW.reverse)
  | fuel + 1, offset, accP, accW =>
    match stepAt buf offset with
    | .stop => .ok (accP.reverse, accW.reverse)
    | .skip _ nextOff => extractLoop buf target fuel nextOff accP accW
    | .abort _ e => .error (e, accW.reverse)
    | .tryWrite en fileParts content nextOff =>
      if ¬(target.isPrefixOf (resolveParts target fileParts)) then
        .error (.escapesTarget en.name, accW.reverse)
      else
        match nextOff with
        | none =>
          .ok ((resolveParts target fileParts :: accP).reverse,
            ((resolveParts target fileParts, content) :: accW).reverse)
        | some o2 =>
          extractLoop buf target fuel o2 (resolveParts target fileParts :: accP)
            ((resolveParts target fileParts, content) :: accW)

/-- Model of `extractArchive` applied to the already-decompressed tar buffer
(gzip decompression is node:zlib, external to this code). -/
def extractArchive (tarBuffer : List Nat) (target : PathC) (fuel : Nat) : ExtractRes :=
  extractLoop tarBuffer target fuel 0 [] []

/-- The entry sequence the extraction loop walks: the same header stream, with
the walk ending where extraction aborts or halts.  This is what "the archive
contains an entry" means for a raw tar buffer. -/
def walkEntries (buf : List Nat) : Nat → Int → List TarEntry
  | 0, _ => []
  | fuel + 1, offset =>
    match stepAt buf offset with
    | .stop => []
    | .skip en nextOff => en :: walkEntries buf fuel nextOff
    | .abort en _ => [en]
    | .tryWrite en _ _ none => [en]
    | .tryWrite en _ _ (some o2) => en :: walkEntries buf fuel o2

/-- Write trace of an extraction result, abort or not. -/
def resWrites : ExtractRes → List (PathC × List Nat)
  | .ok (_, ws) => ws
  | .error (_, ws) => ws


theorem stepAt_skip_not_bad {buf : List Nat} {offset : Int} {en : TarEntry} {nextOff : Int}
    (h : stepAt buf offset = .skip en nextOff) : ¬(en.isRegular ∧ en.badNameP) := by
  simp only [stepAt] at h
  split at h
  · simp at h
  split at h
  · simp at h
  split at h
  · rename_i hreg
    injection h with h1 _
    subst h1
    rintro ⟨hr, -⟩
    exact hreg hr
  split at h
  · rename_i hname
    injection h with h1 _
    subst h1
    rintro ⟨-, hb⟩
    simp [TarEntry.badNameP, hname, splitByte, dotdot] at hb
  split at h
  · simp at h
  split at h
  · simp at h
  split at h
  · rename_i habs hdd hrel
    injection h with h1 _
    subst h1
    rintro ⟨-, hd | ⟨c, hc1, hc2⟩⟩
    · exact habs hd
    · exact hdd (List.any_eq_true.mpr ⟨c, hc1, by simp [hc2]⟩)
  split at h <;> simp at h

theorem stepAt_abort_traversal {buf : List Nat} {offset : Int} {en : TarEntry} {e : ExtractErr}
    (h : stepAt buf offset = .abort en e) : e.isTraversal = true := by
  simp only [stepAt] at h
  split at h
  · simp at h
  split at h
  · simp at h
  split at h
  · simp at h
  split at h
  · simp at h
  split at h
  · injection h with _ h2; subst h2; rfl
  split at h
  · injection h with _ h2; subst h2; rfl
  split at h
  · simp at h
  split at h <;> simp at h

theorem stepAt_tryWrite_not_bad {buf : List Nat} {offset : Int} {en : TarEntry}
    {fp : List (List Nat)} {c : List Nat} {no : Option Int}
    (h : stepAt buf offset = .tryWrite en fp c no) : ¬en.badNameP := by
  simp only [stepAt] at h
  split at h
  · simp at h
  split at h
  · simp at h
  split at h
  · simp at h
  split at h
  · simp at h
  split at h
  · simp at h
  split at h
  · simp at h
  split at h
  · simp at h
  rename_i habs hdd hrel
  split at h <;>
  · injection h with h1 h2 h3 h4
    subst h1
    intro hd
    simp only [TarEntry.badNameP] at hd
    rcases hd with hd | ⟨c0, hc1, hc2⟩
    · exact habs hd
    · exact hdd (List.any_eq_true.mpr ⟨c0, hc1, by simp [hc2]⟩)

theorem extractLoop_writes_prefix (buf : List Nat) (target : PathC) :
    ∀ (fuel : Nat) (offset : Int) (accP : List PathC) (accW : List (PathC × List Nat)),
      (∀ w ∈ accW, target <+: w.1) →
      ∀ w ∈ resWrites (extractLoop buf target fuel offset accP accW), target <+: w.1 := by
  intro fuel
  induction fuel with
  | zero =>
    intro offset accP accW hacc w hw
    simp only [extractLoop, resWrites] at hw
    exact hacc w (List.mem_reverse.mp hw)
  | succ n ih =>
    intro offset accP accW hacc w hw
    rw [extractLoop] at hw
    cases hstep : stepAt buf offset with
    | stop =>
      simp only [hstep, resWrites] at hw
      exact hacc w (List.mem_reverse.mp hw)
    | skip en nextOff =>
      simp only [hstep] at hw
      exact ih _ accP accW hacc w hw
    | abort en e =>
      simp only [hstep, resWrites] at hw
      exact hacc w (List.mem_reverse.mp hw)
    | tryWrite en fp c no =>
      simp only [hstep] at hw
      by_cases hpre : target.isPrefixOf (resolveParts target fp) = true
      · rw [if_neg (not_not_intro hpre)] at hw
        cases no with
        | none =>
          simp only [resWrites] at hw
          rcases List.mem_cons.mp (List.mem_reverse.mp hw) with h1 | h1
          · rw [h1]
            exact List.isPrefixOf_iff_prefix.mp hpre
          · exact hacc w h1
        | some o2 =>
          refine ih _ _ _ ?_ w hw
          intro v hv
          rcases List.mem_cons.mp hv with h1 | h1
          · rw [h1]
            exact List.isPrefixOf_iff_prefix.mp hpre
          · exact hacc v h1
      · rw [if_pos hpre] at hw
        simp only [resWrites] at hw
        exact hacc w (List.mem_reverse.mp hw)

theorem extractLoop_abort (buf : List Nat) (target : PathC) :
    ∀ (fuel : Nat) (offset : Int) (accP : List PathC) (accW : List (PathC × List Nat)),
      (∃ en ∈ walkEntries buf fuel offset, en.isRegular ∧ en.badNameP) →
      ∃ e ws, extractLoop buf target fuel offset accP accW = .error (e, ws)
        ∧ e.isTraversal = true := by
  intro fuel
  induction fuel with
  | zero =>
    intro offset accP accW hbad
    simp [walkEntries] at hbad
  | succ n ih =>
    intro offset accP accW hbad
    rw [walkEntries] at hbad
    rw [extractLoop]
    cases hstep : stepAt buf offset with
    | stop => simp [hstep] at hbad
    | skip en nextOff =>
      simp only [hstep]
      simp only [hstep] at hbad
      obtain ⟨x, hx, hxb⟩ := hbad
      rcases List.mem_cons.mp hx with h1 | h1
      · subst h1
        exact absurd hxb (stepAt_skip_not_bad hstep)
      · exact ih nextOff accP accW ⟨x, h1, hxb⟩
    | abort en e =>
      simp only [hstep]
      exact ⟨e, accW.reverse, rfl, stepAt_abort_traversal hstep⟩
    | tryWrite en fp c no =>
      simp only [hstep] at hbad
      simp only [hstep]
      cases no with
      | none =>
        obtain ⟨x, hx, hxb⟩ := hbad
        rw [List.mem_singleton] at hx
        subst hx
        exact absurd hxb.2 (stepAt_tryWrite_not_bad hstep)
      | some o2 =>
        obtain ⟨x, hx, hxb⟩ := hbad
        rcases List.mem_cons.mp hx with h1 | h1
        · subst h1
          exact absurd hxb.2 (stepAt_tryWrite_not_bad hstep)
        · by_cases hpre : target.isPrefixOf (resolveParts target fp) = true
          · rw [if_neg (not_not_intro hpre)]
            exact ih o2 _ _ ⟨x, h1, hxb⟩
          · rw [if_pos hpre]
            exact ⟨.escapesTarget en.name, accW.reverse, rfl, rfl⟩

/-- A 512-byte USTAR header block holding the given name bytes, size-field
bytes and type-flag byte; every other field is zero (the extractor reads no
other field, and it does not validate the checksum). -/
def mkHeader (name sizeField : List Nat) (tf : Nat) : List Nat :=
  (name ++ List.replicate (100 - name.length) 0) ++
    (List.replicate 24 0 ++
      ((sizeField ++ List.replicate (12 - sizeField.length) 0) ++
        (List.replicate 20 0 ++ ([tf] ++ List.replicate 355 0))))

theorem mkHeader_length (nm sz : List Nat) (tf : Nat)
    (h100 : nm.length ≤ 100) (h12 : sz.length ≤ 12) : (mkHeader nm sz tf).length = 512 := by
  simp only [mkHeader, List.length_append, List.length_replicate, List.length_cons,
    List.length_nil]
  omega

theorem jsSubarray_nat (l : List Nat) (a b : Nat) (hb : b ≤ l.length) :
    jsSubarray l (a : Int) (b : Int) = (l.take b).drop a := by
  unfold jsSubarray clampIdx
  have h1 : ¬((b : Int) < 0) := by omega
  have h2 : ¬((a : Int) < 0) := by omega
  rw [if_neg h1, if_neg h2, Int.toNat_natCast, Int.toNat_natCast, min_eq_left hb]
  rcases le_or_lt a l.length with ha | ha
  · rw [min_eq_left ha]
  · rw [min_eq_right ha.le]
    rw [List.drop_eq_nil_of_le (by simp only [List.length_take]; omega),
      List.drop_eq_nil_of_le (by simp only [List.length_take]; omega)]

theorem dropWhile_zero_replicate (k : Nat) (l : List Nat) :
    (List.replicate k 0 ++ l).dropWhile (fun b => b == 0) = l.dropWhile (fun b => b == 0) := by
  induction k with
  | zero => simp
  | succ n ih => simp [List.replicate_succ, List.dropWhile, ih]

theorem dropWhile_eq_self_of_forall {p : Nat → Bool} (l : List Nat)
    (h : ∀ b ∈ l, p b = false) : l.dropWhile p = l := by
  cases l with
  | nil => rfl
  | cons b r => simp [List.dropWhile, h b (by simp)]

theorem stripTrailingZeros_pad (nm : List Nat) (k : Nat) (h : 0 ∉ nm) :
    stripTrailingZeros (nm ++ List.replicate k 0) = nm := by
  unfold stripTrailingZeros
  rw [List.reverse_append, List.reverse_replicate, dropWhile_zero_replicate,
    dropWhile_eq_self_of_forall, List.reverse_reverse]
  intro b hb
  have hmem : b ∈ nm := List.mem_reverse.mp hb
  simp only [beq_eq_false_iff_ne, ne_eq]
  intro hb0
  exact h (hb0 ▸ hmem)

theorem jsTrim_eq_self (l : List Nat) (h : ∀ b ∈ l, isWsByte b = false) : jsTrim l = l := by
  unfold jsTrim
  rw [dropWhile_eq_self_of_forall l h,
    dropWhile_eq_self_of_forall _ (fun b hb => h b (List.mem_reverse.mp hb)),
    List.reverse_reverse]

theorem parseOctInt_digits (sz : List Nat) (hne : sz ≠ [])
    (hd : ∀ b ∈ sz, isOctByte b = true) : parseOctInt sz = some ((octVal sz : Int)) := by
  match sz, hne with
  | b :: r, _ =>
    have hb := hd b (by simp)
    have hb48 : 48 ≤ b ∧ b ≤ 55 := by
      simpa [isOctByte, Bool.and_eq_true, decide_eq_true_eq] using hb
    have h45 : ¬(b = 45) := by omega
    have h43 : ¬(b = 43) := by omega
    simp only [parseOctInt]
    rw [if_neg h45, if_neg h43]
    rw [List.takeWhile_eq_self_iff.mpr hd]
    simp

theorem parseSize_digits (sz : List Nat) (hne : sz ≠ [])
    (hd : ∀ b ∈ sz, isOctByte b = true) : parseSize sz = some ((octVal sz : Int)) := by
  unfold parseSize
  rw [if_neg (by simpa using hne)]
  exact parseOctInt_digits sz hne hd

theorem isWsByte_false_of_oct (b : Nat) (h : isOctByte b = true) : isWsByte b = false := by
  simp only [isOctByte, Bool.and_eq_true, decide_eq_true_eq] at h
  simp only [isWsByte, Bool.or_eq_false_iff, beq_eq_false_iff_ne, ne_eq,
    Bool.and_eq_false_iff, decide_eq_false_iff_not]
  omega

theorem segment_extract (X Y Z : List Nat) (a b : Nat) (hX : X.length = a)
    (hb : b = a + Y.length) :
    ((X ++ (Y ++ Z)).take b).drop a = Y := by
  rw [← List.append_assoc, List.take_append_eq_append_take,
    List.take_of_length_le (by simp [hX, hb]),
    show b - (X ++ Y).length = 0 by simp [hX, hb], List.take_zero, List.append_nil,
    List.drop_append_eq_append_drop, List.drop_eq_nil_of_le (le_of_eq hX), hX,
    Nat.sub_self, List.drop_zero, List.nil_append]

theorem stepAt_mkHeader (nm sz data : List Nat)
    (h100 : nm.length ≤ 100) (h12 : sz.length ≤ 12) (h0 : 0 ∉ nm) (hnm : nm ≠ [])
    (hne : sz ≠ []) (hoct : ∀ b ∈ sz, isOctByte b = true) :
    stepAt (mkHeader nm sz 48 ++ data) 0 =
      (if nm.head? = some 47 then
        .abort ⟨nm, [48], some ((octVal sz : Int))⟩ (.absolutePath nm)
      else if (splitByte 47 nm).any (fun c => c == dotdot) then
        .abort ⟨nm, [48], some ((octVal sz : Int))⟩ (.dotdotComponent nm)
      else if stripFirst (splitByte 47 nm) = [] ∨ stripFirst (splitByte 47 nm) = [[]] then
        .skip ⟨nm, [48], some ((octVal sz : Int))⟩ (skipAdvance 512 (some ((octVal sz : Int))))
      else
        .tryWrite ⟨nm, [48], some ((octVal sz : Int))⟩ (stripFirst (splitByte 47 nm))
          (jsSubarray (mkHeader nm sz 48 ++ data) 512 (512 + (octVal sz : Int)))
          (some (512 + ceilBlocks (octVal sz) * 512))) := by
  have hlen : (mkHeader nm sz 48).length = 512 := mkHeader_length nm sz 48 h100 h12
  have hAlen : (nm ++ List.replicate (100 - nm.length) 0).length = 100 := by
    simp only [List.length_append, List.length_replicate]; omega
  have hClen : (sz ++ List.replicate (12 - sz.length) 0).length = 12 := by
    simp only [List.length_append, List.length_replicate]; omega
  have hheader : jsSubarray (mkHeader nm sz 48 ++ data) 0 (0 + 512) = mkHeader nm sz 48 := by
    rw [show ((0 : Int) + 512) = ((512 : Nat) : Int) by norm_num,
      show (0 : Int) = ((0 : Nat) : Int) by norm_num,
      jsSubarray_nat _ 0 512 (by simp [hlen])]
    rw [List.take_append_eq_append_take, List.take_of_length_le (le_of_eq hlen), hlen]
    simp
  have hname : jsSubarray (mkHeader nm sz 48) 0 100 =
      nm ++ List.replicate (100 - nm.length) 0 := by
    rw [show (100 : Int) = ((100 : Nat) : Int) by norm_num,
      show (0 : Int) = ((0 : Nat) : Int) by norm_num,
      jsSubarray_nat _ 0 100 (by omega)]
    unfold mkHeader
    rw [List.take_append_eq_append_take, List.take_of_length_le (le_of_eq hAlen), hAlen]
    simp
  have hsizeassoc : mkHeader nm sz 48 =
      ((nm ++ List.replicate (100 - nm.length) 0) ++ List.replicate 24 0) ++
        ((sz ++ List.replicate (12 - sz.length) 0) ++
          (List.replicate 20 0 ++ ([48] ++ List.replicate 355 0))) := by
    unfold mkHeader
    simp [List.append_assoc]
  have hsize : jsSubarray (mkHeader nm sz 48) 124 136 =
      sz ++ List.replicate (12 - sz.length) 0 := by
    rw [show (136 : Int) = ((136 : Nat) : Int) by norm_num,
      show (124 : Int) = ((124 : Nat) : Int) by norm_num,
      jsSubarray_nat _ 124 136 (by omega), hsizeassoc]
    exact segment_extract _ _ _ 124 136 (by simp only [List.length_append, hAlen,
      List.length_replicate]) (by rw [hClen])
  have htfassoc : mkHeader nm sz 48 =
      (((nm ++ List.replicate (100 - nm.length) 0) ++ List.replicate 24 0 ++
        (sz ++ List.replicate (12 - sz.length) 0) ++ List.replicate 20 0)) ++
        ([48] ++ List.replicate 355 0) := by
    unfold mkHeader
    simp [List.append_assoc]
  have htf : jsSubarray (mkHeader nm sz 48) 156 157 = [48] := by
    rw [show (157 : Int) = ((157 : Nat) : Int) by norm_num,
      show (156 : Int) = ((156 : Nat) : Int) by norm_num,
      jsSubarray_nat _ 156 157 (by omega), htfassoc]
    exact segment_extract _ _ _ 156 157 (by simp only [List.length_append, hAlen, hClen,
      List.length_replicate]) (by simp)
  have hsingle : stripTrailingZeros [48] = [48] := by
    unfold stripTrailingZeros
    simp [List.dropWhile]
  have hrawName : stripTrailingZeros (jsSubarray (mkHeader nm sz 48) 0 100) = nm := by
    rw [hname]; exact stripTrailingZeros_pad nm _ h0
  have hsizeBytes :
      jsTrim (stripTrailingZeros (jsSubarray (mkHeader nm sz 48) 124 136)) = sz := by
    rw [hsize, stripTrailingZeros_pad sz _ (fun hmem => by
      have h48 := hoct 0 hmem
      simp [isOctByte] at h48)]
    exact jsTrim_eq_self sz (fun b hb => isWsByte_false_of_oct b (hoct b hb))
  have htfStrip : stripTrailingZeros (jsSubarray (mkHeader nm sz 48) 156 157) = [48] := by
    rw [htf, hsingle]
  have hzero : (mkHeader nm sz 48).all (fun b => b == 0) = false := by
    unfold mkHeader
    simp
  have hc1 : (0 : Int) + 512 ≤ (((mkHeader nm sz 48 ++ data).length : Nat) : Int) := by
    have : (mkHeader nm sz 48 ++ data).length = 512 + data.length := by simp [hlen]
    rw [this]
    push_cast
    omega
  have hps : parseSize sz = some ((octVal sz : Int)) := parseSize_digits sz hne hoct
  rw [stepAt]
  rw [if_neg (not_not_intro hc1), hheader]
  rw [if_neg (by simp [hzero])]
  simp only [hrawName, hsizeBytes, htfStrip, hps, zero_add]
  rw [if_neg (by simp)]
  rw [if_neg (by simpa using hnm)]

theorem extractLoop_stop_past_end (buf : List Nat) (target : PathC) (fuel : Nat) (offset : Int)
    (accP : List PathC) (accW : List (PathC × List Nat))
    (h : (buf.length : Int) < offset + 512) :
    extractLoop buf target (fuel + 1) offset accP accW = .ok (accP.reverse, accW.reverse) := by
  rw [extractLoop, show stepAt buf offset = .stop from by rw [stepAt, if_pos (by omega)]]

theorem jsSubarray_tail (H data : List Nat) (b : Nat) (hH : H.length = 512)
    (hb : H.length + data.length ≤ b) :
    jsSubarray (H ++ data) ((512 : Nat) : Int) ((b : Nat) : Int) = data := by
  have hlen : (H ++ data).length = 512 + data.length := by simp [hH]
  have h1 : ¬(((b : Nat) : Int) < 0) := by omega
  have h2 : ¬(((512 : Nat) : Int) < 0) := by omega
  unfold jsSubarray clampIdx
  rw [if_neg h1, if_neg h2, Int.toNat_natCast, Int.toNat_natCast]
  have hm1 : min b (H ++ data).length = (H ++ data).length := min_eq_right (by omega)
  have hm2 : min 512 (H ++ data).length = 512 := min_eq_left (by omega)
  rw [hm1, hm2, List.take_length, List.drop_append_eq_append_drop]
  have hd1 : List.drop 512 H = [] := List.drop_eq_nil_of_le (by omega)
  rw [hd1, hH, Nat.sub_self, List.drop_zero, List.nil_append]

theorem ceilBlocks_ge (s : Nat) : (s : Int) ≤ ceilBlocks (s : Int) * 512 := by
  unfold ceilBlocks
  rw [if_pos (by omega), Int.toNat_natCast]
  have h : s ≤ ((s + 511) / 512) * 512 := by omega
  exact_mod_cast h

/-- C2: extraction aborts with a path-traversal error on any archive whose
entry walk contains a regular-file entry with an absolute name or a ".."
component, and every file write it performed (before aborting) lies inside
the target directory — so no file is created at the bad entry's path, nor
anywhere else, outside the target. -/
theorem extract_rejects_traversal (buf : List Nat) (target : PathC) (fuel : Nat)
    (hbad : ∃ en ∈ walkEntries buf fuel 0, en.isRegular ∧ en.badNameP) :
    ∃ e ws, extractArchive buf target fuel = .error (e, ws) ∧ e.isTraversal = true
      ∧ ∀ w ∈ ws, target <+: w.1 := by
  obtain ⟨e, ws, heq, htrav⟩ := extractLoop_abort buf target fuel 0 [] [] hbad
  refine ⟨e, ws, heq, htrav, fun w hw => ?_⟩
  have hall := extractLoop_writes_prefix buf target fuel 0 [] [] (by simp)
  rw [heq] at hall
  simp only [resWrites] at hall
  exact hall w hw

/-- Witness for C2: a concrete archive holding the single regular entry
"skill/../x" is rejected with a traversal error and writes nothing outside
the target. -/
theorem extract_rejects_traversal_witness :
    ∃ e ws, extractArchive (mkHeader (strBytes "skill/../x") [48] 48)
        [strBytes "skills", strBytes "s"] 2 = .error (e, ws) ∧ e.isTraversal = true
      ∧ ∀ w ∈ ws, [strBytes "skills", strBytes "s"] <+: w.1 :=
  extract_rejects_traversal _ _ 2 (by decide)

/-- Counterexample input for C4: a gzip-decompressed tar whose single header
declares an octal size of 012 (ten bytes) but whose data is entirely absent. -/
def truncatedTar : List Nat := mkHeader (strBytes "skill/f.txt") (strBytes "12") 48

/-- Counterexample to C4: on the truncated archive the extractor completes
normally, returning the extracted path with empty content, instead of
aborting with a truncated-kind error (the code has no truncation check). -/
theorem truncated_completes_counterexample :
    extractArchive truncatedTar [strBytes "t"] 2 =
      .ok ([[strBytes "t", strBytes "f.txt"]], [([strBytes "t", strBytes "f.txt"], [])]) := by
  rfl

/-- C4 as amended: truncation is never detected.  For every declared octal
size strictly larger than the data actually present, extraction of the
truncated archive completes normally, writing the entry with just the bytes
available, under any fuel bound of at least two. -/
theorem truncated_extract_completes (sz data : List Nat) (target : PathC) (fuel : Nat)
    (hne : sz ≠ []) (hoct : ∀ b ∈ sz, isOctByte b = true) (h12 : sz.length ≤ 12)
    (htrunc : data.length < octVal sz) :
    extractArchive (mkHeader (strBytes "skill/f.txt") sz 48 ++ data) target (fuel + 2) =
      .ok ([target ++ [strBytes "f.txt"]], [(target ++ [strBytes "f.txt"], data)]) := by
  have hstep := stepAt_mkHeader (strBytes "skill/f.txt") sz data (by decide) h12
    (by decide) (by decide) hne hoct
  rw [if_neg (by decide), if_neg (by decide), if_neg (by decide),
    show stripFirst (splitByte 47 (strBytes "skill/f.txt")) = [strBytes "f.txt"] from by decide]
    at hstep
  have hlen : (mkHeader (strBytes "skill/f.txt") sz 48).length = 512 :=
    mkHeader_length _ _ _ (by decide) h12
  have hcontent : jsSubarray (mkHeader (strBytes "skill/f.txt") sz 48 ++ data) 512
      (512 + ((octVal sz : Nat) : Int)) = data := by
    rw [show (512 : Int) + ((octVal sz : Nat) : Int) = ((512 + octVal sz : Nat) : Int) from by
        push_cast; ring,
      show (512 : Int) = ((512 : Nat) : Int) from by norm_num]
    exact jsSubarray_tail _ _ _ hlen (by omega)
  rw [hcontent] at hstep
  have hres : resolveParts target [strBytes "f.txt"] = target ++ [strBytes "f.txt"] := by
    unfold resolveParts
    rw [if_neg (by decide), show cleanParts [strBytes "f.txt"] = [strBytes "f.txt"] from by decide]
  have hpre : target.isPrefixOf (target ++ [strBytes "f.txt"]) = true :=
    List.isPrefixOf_iff_prefix.mpr ⟨[strBytes "f.txt"], rfl⟩
  have harec : extractLoop (mkHeader (strBytes "skill/f.txt") sz 48 ++ data) target (fuel + 1)
      (512 + ceilBlocks ((octVal sz : Nat) : Int) * 512)
      [target ++ [strBytes "f.txt"]] [(target ++ [strBytes "f.txt"], data)] =
      .ok ([target ++ [strBytes "f.txt"]], [(target ++ [strBytes "f.txt"], data)]) := by
    rw [extractLoop_stop_past_end]
    · simp
    · have hblocks := ceilBlocks_ge (octVal sz)
      have hb : (mkHeader (strBytes "skill/f.txt") sz 48 ++ data).length =
          512 + data.length := by
        simp [hlen]
      rw [hb]
      push_cast
      omega
  rw [show fuel + 2 = (fuel + 1) + 1 from rfl]
  unfold extractArchive
  rw [extractLoop, hstep]
  dsimp only
  rw [hres]
  rw [if_neg (not_not_intro hpre)]
  exact harec

/-- Witness for the amended C4 theorem, at declared size 012 (ten bytes)
with three data bytes present. -/
theorem truncated_extract_completes_witness :
    extractArchive (mkHeader (strBytes "skill/f.txt") (strBytes "12") 48 ++ [65, 66, 67])
        [strBytes "t"] 2 =
      .ok ([[strBytes "t", strBytes "f.txt"]], [([strBytes "t", strBytes "f.txt"], [65, 66, 67])]) :=
  truncated_extract_completes (strBytes "12") [65, 66, 67] [strBytes "t"] 0
    (by decide) (by decide) (by decide) (by decide)

theorem splitByte_ne_nil (sep : Nat) (l : List Nat) : splitByte sep l ≠ [] := by
  cases l with
  | nil => simp [splitByte]
  | cons b r =>
    unfold splitByte
    cases h : splitByte sep r with
    | nil => simp
    | cons c cs =>
      dsimp only
      split <;> simp

theorem splitByte_no_sep (sep : Nat) (nm : List Nat) (h : sep ∉ nm) :
    splitByte sep nm = [nm] := by
  induction nm with
  | nil => rfl
  | cons b r ih =>
    have hb : ¬(b = sep) := fun hb => h (by simp [hb])
    have hr := ih (fun hc => h (by simp [hc]))
    unfold splitByte
    rw [hr]
    simp [hb]

theorem splitByte_sep_append (sep : Nat) (c d : List Nat) (hc : sep ∉ c) :
    splitByte sep (c ++ sep :: d) = c :: splitByte sep d := by
  induction c with
  | nil =>
    obtain ⟨c0, cs, hsplit⟩ := List.exists_cons_of_ne_nil (splitByte_ne_nil sep d)
    simp only [List.nil_append]
    conv_lhs => rw [splitByte]
    rw [hsplit]
    simp [hsplit]
  | cons b r ih =>
    have hb : ¬(b = sep) := fun hb => hc (by simp [hb])
    have hr := ih (fun hmem => hc (by simp [hmem]))
    simp only [List.cons_append]
    conv_lhs => rw [splitByte]
    rw [hr]
    simp [hb]

theorem jsSubarray_size_zero (H : List Nat) (hH : H.length = 512) :
    jsSubarray H 512 (512 + ((octVal [48] : Nat) : Int)) = [] := by
  have h := jsSubarray_tail H [] 512 hH (by simp [hH])
  rw [List.append_nil] at h
  rw [show (512 : Int) + ((octVal [48] : Nat) : Int) = ((512 : Nat) : Int) from by
      rw [show octVal [48] = 0 from rfl]; norm_num,
    show (512 : Int) = ((512 : Nat) : Int) from by norm_num]
  exact h

/-- Counterexample to C5: an archive whose single regular entry has the
one-component name "orphan.md" (no '/') does produce an extracted file — the
extractor keeps a single-component name unstripped instead of reducing it to
an empty relative path and skipping it. -/
theorem single_component_extracted :
    extractArchive (mkHeader (strBytes "orphan.md") [48] 48) [strBytes "t"] 2 =
      .ok ([[strBytes "t", strBytes "orphan.md"]],
        [([strBytes "t", strBytes "orphan.md"], [])]) := by
  rfl

/-- C5 as amended: the first path component of a regular entry name is
stripped only when the name contains a '/'.  (a) A single-component name is
used unchanged as the relative output path, so the entry produces an
extracted file at that name.  (b) A name of the form "c/" strips to an empty
relative path and the entry is skipped.  (c) A two-component name "c/d"
strips to "d".  All statements are over single-entry archives of declared
size 0, with any fuel bound of at least two. -/
theorem strip_first_component_behavior (target : PathC) (fuel : Nat) :
    (∀ nm : List Nat, nm ≠ [] → 47 ∉ nm → 0 ∉ nm → nm.length ≤ 100 → nm ≠ [46] →
      nm ≠ dotdot →
      extractArchive (mkHeader nm [48] 48) target (fuel + 2) =
        .ok ([target ++ [nm]], [(target ++ [nm], [])]))
    ∧ (∀ c : List Nat, c ≠ [] → 47 ∉ c → 0 ∉ c → c.length ≤ 99 → c ≠ dotdot →
      extractArchive (mkHeader (c ++ [47]) [48] 48) target (fuel + 2) = .ok ([], []))
    ∧ (∀ c d : List Nat, c ≠ [] → 47 ∉ c → 0 ∉ c → c ≠ dotdot →
        d ≠ [] → 47 ∉ d → 0 ∉ d → d ≠ [46] → d ≠ dotdot → (c ++ 47 :: d).length ≤ 100 →
      extractArchive (mkHeader (c ++ 47 :: d) [48] 48) target (fuel + 2) =
        .ok ([target ++ [d]], [(target ++ [d], [])])) := by
  have hsz48 : ∀ b ∈ ([48] : List Nat), isOctByte b = true := by decide
  have hceil : ceilBlocks ((octVal [48] : Nat) : Int) = 0 := rfl
  refine ⟨?_, ?_, ?_⟩
  · intro nm hnm h47 h0 h100 hdot1 hdot
    have hlen : (mkHeader nm [48] 48).length = 512 := mkHeader_length _ _ _ h100 (by decide)
    have hstep := stepAt_mkHeader nm [48] [] h100 (by decide) h0 hnm (by decide) hsz48
    rw [List.append_nil] at hstep
    have hhead : ¬(nm.head? = some 47) := by
      cases nm with
      | nil => simp
      | cons b r =>
        simp only [List.head?_cons, Option.some.injEq]
        rintro rfl
        exact h47 (by simp)
    have hsplit : splitByte 47 nm = [nm] := splitByte_no_sep 47 nm h47
    have hdd : ¬(((splitByte 47 nm).any fun c => c == dotdot) = true) := by
      rw [hsplit]
      simp [hdot]
    have hstripf : stripFirst (splitByte 47 nm) = [nm] := by rw [hsplit]; rfl
    have hrel : ¬([nm] = ([] : List (List Nat)) ∨ [nm] = [[]]) := by simp [hnm]
    rw [if_neg hhead, if_neg hdd, hstripf, if_neg hrel, jsSubarray_size_zero _ hlen] at hstep
    have hres : resolveParts target [nm] = target ++ [nm] := by
      unfold resolveParts
      rw [if_neg (by simp [hnm]), show cleanParts [nm] = [nm] from by
        simp [cleanParts, hnm, hdot1]]
    have hpre : target.isPrefixOf (target ++ [nm]) = true :=
      List.isPrefixOf_iff_prefix.mpr ⟨[nm], rfl⟩
    have harec : extractLoop (mkHeader nm [48] 48) target (fuel + 1)
        (512 + ceilBlocks ((octVal [48] : Nat) : Int) * 512)
        [target ++ [nm]] [(target ++ [nm], [])] =
        .ok ([target ++ [nm]], [(target ++ [nm], [])]) := by
      rw [extractLoop_stop_past_end]
      · simp
      · rw [hlen, hceil]
        norm_num
    rw [show fuel + 2 = (fuel + 1) + 1 from rfl]
    unfold extractArchive
    rw [extractLoop, hstep]
    dsimp only
    rw [hres, if_neg (not_not_intro hpre)]
    exact harec
  · intro c hcne h47 h0 h99 hdot
    have h100 : (c ++ [47]).length ≤ 100 := by simp; omega
    have hlen : (mkHeader (c ++ [47]) [48] 48).length = 512 :=
      mkHeader_length _ _ _ h100 (by decide)
    have hstep := stepAt_mkHeader (c ++ [47]) [48] [] h100 (by decide)
      (by simp [h0]) (by simp) (by decide) hsz48
    rw [List.append_nil] at hstep
    have hhead : ¬((c ++ [47]).head? = some 47) := by
      cases c with
      | nil => exact absurd rfl hcne
      | cons b r =>
        simp only [List.cons_append, List.head?_cons, Option.some.injEq]
        rintro rfl
        exact h47 (by simp)
    have hsplit : splitByte 47 (c ++ [47]) = [c, []] := by
      have := splitByte_sep_append 47 c [] h47
      simpa using this
    have hdd : ¬(((splitByte 47 (c ++ [47])).any fun x => x == dotdot) = true) := by
      have hdotb : ¬(c = [46, 46]) := by simpa [dotdot] using hdot
      rw [hsplit]
      simp [hdotb, dotdot]
    have hstripf : stripFirst (splitByte 47 (c ++ [47])) = [[]] := by rw [hsplit]; rfl
    rw [if_neg hhead, if_neg hdd, hstripf, if_pos (Or.inr rfl)] at hstep
    rw [show fuel + 2 = (fuel + 1) + 1 from rfl]
    unfold extractArchive
    rw [extractLoop, hstep]
    dsimp only
    rw [show skipAdvance 512 (some ((octVal [48] : Nat) : Int)) = 512 from rfl]
    rw [extractLoop_stop_past_end]
    · simp
    · rw [hlen]
      norm_num
  · intro c d hcne h47c h0c hdotc hdne h47d h0d hdot1 hdotd h100
    have hlen : (mkHeader (c ++ 47 :: d) [48] 48).length = 512 :=
      mkHeader_length _ _ _ h100 (by decide)
    have hstep := stepAt_mkHeader (c ++ 47 :: d) [48] [] h100 (by decide)
      (by simp [h0c, h0d]) (by simp) (by decide) hsz48
    rw [List.append_nil] at hstep
    have hhead : ¬((c ++ 47 :: d).head? = some 47) := by
      cases c with
      | nil => exact absurd rfl hcne
      | cons b r =>
        simp only [List.cons_append, List.head?_cons, Option.some.injEq]
        rintro rfl
        exact h47c (by simp)
    have hsplit : splitByte 47 (c ++ 47 :: d) = [c, d] := by
      rw [splitByte_sep_append 47 c d h47c, splitByte_no_sep 47 d h47d]
    have hdd : ¬(((splitByte 47 (c ++ 47 :: d)).any fun x => x == dotdot) = true) := by
      rw [hsplit]
      simp [hdotc, hdotd]
    have hstripf : stripFirst (splitByte 47 (c ++ 47 :: d)) = [d] := by rw [hsplit]; rfl
    have hrel : ¬([d] = ([] : List (List Nat)) ∨ [d] = [[]]) := by simp [hdne]
    rw [if_neg hhead, if_neg hdd, hstripf, if_neg hrel, jsSubarray_size_zero _ hlen] at hstep
    have hres : resolveParts target [d] = target ++ [d] := by
      unfold resolveParts
      rw [if_neg (by simp [hdne]), show cleanParts [d] = [d] from by
        simp [cleanParts, hdne, hdot1]]
    have hpre : target.isPrefixOf (target ++ [d]) = true :=
      List.isPrefixOf_iff_prefix.mpr ⟨[d], rfl⟩
    have harec : extractLoop (mkHeader (c ++ 47 :: d) [48] 48) target (fuel + 1)
        (512 + ceilBlocks ((octVal [48] : Nat) : Int) * 512)
        [target ++ [d]] [(target ++ [d], [])] =
        .ok ([target ++ [d]], [(target ++ [d], [])]) := by
      rw [extractLoop_stop_past_end]
      · simp
      · rw [hlen, hceil]
        norm_num
    rw [show fuel + 2 = (fuel + 1) + 1 from rfl]
    unfold extractArchive
    rw [extractLoop, hstep]
    dsimp only
    rw [hres, if_neg (not_not_intro hpre)]
    exact harec

/-- Witness for the amended C5 theorem at the names "orphan.md", "skill/"
and "skill/SKILL.md". -/
theorem strip_first_component_behavior_witness :
    extractArchive (mkHeader (strBytes "orphan.md") [48] 48) [strBytes "w"] 2 =
        .ok ([[strBytes "w", strBytes "orphan.md"]], [([strBytes "w", strBytes "orphan.md"], [])])
    ∧ extractArchive (mkHeader (strBytes "skill/") [48] 48) [strBytes "w"] 2 = .ok ([], [])
    ∧ extractArchive (mkHeader (strBytes "skill/SKILL.md") [48] 48) [strBytes "w"] 2 =
        .ok ([[strBytes "w", strBytes "SKILL.md"]], [([strBytes "w", strBytes "SKILL.md"], [])]) := by
  refine ⟨?_, ?_, ?_⟩
  · exact (strip_first_component_behavior [strBytes "w"] 0).1 (strBytes "orphan.md")
      (by decide) (by decide) (by decide) (by decide) (by decide) (by decide)
  · exact (strip_first_component_behavior [strBytes "w"] 0).2.1 (strBytes "skill")
      (by decide) (by decide) (by decide) (by decide) (by decide)
  · exact (strip_first_component_behavior [strBytes "w"] 0).2.2 (strBytes "skill")
      (strBytes "SKILL.md") (by decide) (by decide) (by decide) (by decide) (by decide)
      (by decide) (by decide) (by decide) (by decide) (by decide)


/-- JS string comparison on char lists (JS compares strings by UTF-16 code
units; on the Basic Multilingual Plane this coincides with the code-point
comparison used here). -/
def jsLtChars : List Char → List Char → Bool
  | [], [] => false
  | [], _ :: _ => true
  | _ :: _, [] => false
  | a :: as, b :: bs =>
    if a.toNat < b.toNat then true
    else if b.toNat < a.toNat then false
    else jsLtChars as bs

/-- JS `a < b` on strings. -/
def jsStrLt (a b : String) : Bool := jsLtChars a.data b.data

/-- JS `a <= b` on strings, the order `Array.prototype.sort()` produces with
its default comparator. -/
def jsStrLe (a b : String) : Bool := !jsStrLt b a

theorem jsLtChars_irrefl : ∀ as, jsLtChars as as = false := by
  intro as
  induction as with
  | nil => rfl
  | cons a r ih => simp [jsLtChars, ih]

theorem jsLtChars_asymm : ∀ as bs, jsLtChars as bs = true → jsLtChars bs as = false := by
  intro as
  induction as with
  | nil => intro bs h; cases bs <;> simp_all [jsLtChars]
  | cons a r ih =>
    intro bs h
    cases bs with
    | nil => simp_all [jsLtChars]
    | cons b s =>
      simp only [jsLtChars] at h ⊢
      rcases Nat.lt_trichotomy a.toNat b.toNat with hlt | heq | hgt
      · rw [if_neg (by omega), if_pos hlt]
      · rw [if_neg (by omega), if_neg (by omega)] at h ⊢
        exact ih s h
      · rw [if_pos hgt, if_neg (by omega)] at h
        exact absurd h (by simp)

theorem jsLtChars_trans :
    ∀ as bs cs, jsLtChars as bs = true → jsLtChars bs cs = true → jsLtChars as cs = true := by
  intro as
  induction as with
  | nil =>
    intro bs cs h1 h2
    cases bs with
    | nil => simp_all [jsLtChars]
    | cons b s => cases cs <;> simp_all [jsLtChars]
  | cons a r ih =>
    intro bs cs h1 h2
    cases bs with
    | nil => simp_all [jsLtChars]
    | cons b s =>
      cases cs with
      | nil => simp_all [jsLtChars]
      | cons c t =>
        simp only [jsLtChars] at h1 h2 ⊢
        rcases Nat.lt_trichotomy a.toNat b.toNat with hab | hab | hab <;>
          rcases Nat.lt_trichotomy b.toNat c.toNat with hbc | hbc | hbc
        all_goals try (rw [if_pos (by omega)])
        all_goals try (exact absurd h1 (by rw [if_neg (by omega), if_pos (by omega)]; simp))
        all_goals try (exact absurd h2 (by rw [if_neg (by omega), if_pos (by omega)]; simp))
        rw [if_neg (by omega), if_neg (by omega)]
        rw [if_neg (by omega), if_neg (by omega)] at h1 h2
        exact ih s t h1 h2

theorem jsLtChars_connex :
    ∀ as bs, jsLtChars as bs = false → jsLtChars bs as = false → as = bs := by
  intro as
  induction as with
  | nil => intro bs h1 h2; cases bs <;> simp_all [jsLtChars]
  | cons a r ih =>
    intro bs h1 h2
    cases bs with
    | nil => simp_all [jsLtChars]
    | cons b s =>
      simp only [jsLtChars] at h1 h2
      rcases Nat.lt_trichotomy a.toNat b.toNat with hab | hab | hab
      · rw [if_pos hab] at h1
        exact absurd h1 (by simp)
      · rw [if_neg (by omega), if_neg (by omega)] at h1 h2
        have ha : a = b := Char.ext (UInt32.ext hab)
        rw [ha, ih s h1 h2]
      · rw [if_pos hab] at h2
        exact absurd h2 (by simp)

theorem jsStrLe_refl (a : String) : jsStrLe a a = true := by
  simp [jsStrLe, jsStrLt, jsLtChars_irrefl]

theorem jsStrLe_total (a b : String) : jsStrLe a b = true ∨ jsStrLe b a = true := by
  by_cases h : jsLtChars b.data a.data = true
  · right
    simp [jsStrLe, jsStrLt, jsLtChars_asymm _ _ h]
  · left
    simp only [jsStrLe, jsStrLt, Bool.not_eq_true] at h ⊢
    simp [h]

theorem jsStrLe_trans (a b c : String) (h1 : jsStrLe a b = true) (h2 : jsStrLe b c = true) :
    jsStrLe a c = true := by
  simp only [jsStrLe, jsStrLt, Bool.not_eq_true'] at h1 h2 ⊢
  by_cases hca : jsLtChars c.data a.data = true
  · by_cases hbc : jsLtChars b.data c.data = true
    · have hba := jsLtChars_trans _ _ _ hbc hca
      rw [hba] at h1
      exact absurd h1 (by simp)
    · have hbceq : b.data = c.data := jsLtChars_connex _ _ (by simpa using hbc) h2
      rw [← hbceq] at hca
      rw [hca] at h1
      exact absurd h1 (by simp)
  · simpa using hca

/-- JSON value model: numbers are the integers that actually occur in the
signed payloads (sizes, the index schema version), and `undefined` does not
arise. -/
inductive Json where
  | null
  | bool (b : Bool)
  | num (n : Int)
  | str (s : String)
  | arr (elems : List Json)
  | obj (fields : List (String × Json))

/-- Induction over the nested `Json` type, recursing into array elements and
object field values. -/
theorem Json.inductionOn {motive : Json → Prop}
    (hnull : motive .null) (hbool : ∀ b, motive (.bool b)) (hnum : ∀ n, motive (.num n))
    (hstr : ∀ s, motive (.str s))
    (harr : ∀ xs, (∀ x ∈ xs, motive x) → motive (.arr xs))
    (hobj : ∀ kvs, (∀ kv ∈ kvs, motive kv.2) → motive (.obj kvs)) : ∀ v, motive v
  | .null => hnull
  | .bool b => hbool b
  | .num n => hnum n
  | .str s => hstr s
  | .arr xs => harr xs (fun x hx =>
      Json.inductionOn hnull hbool hnum hstr harr hobj x)
  | .obj kvs => hobj kvs (fun kv hkv =>
      Json.inductionOn hnull hbool hnum hstr harr hobj kv.2)
termination_by v => sizeOf v
decreasing_by
  · have h1 := List.sizeOf_lt_of_mem hx
    simp only [Json.arr.sizeOf_spec]
    omega
  · have h1 := List.sizeOf_lt_of_mem hkv
    have h2 : sizeOf kv.2 < sizeOf kv := by
      obtain ⟨k, v⟩ := kv
      simp only [Prod.mk.sizeOf_spec]
      omega
    simp only [Json.obj.sizeOf_spec]
    omega

/-- Field order used by `Object.keys(val).sort()`: compare keys as JS
strings. -/
def fieldLe (a b : String × Json) : Prop := jsStrLe a.1 b.1 = true

instance : DecidableRel fieldLe := fun a b => by unfold fieldLe; infer_instance

instance : IsTotal (String × Json) fieldLe :=
  ⟨fun a b => jsStrLe_total a.1 b.1⟩

instance : IsTrans (String × Json) fieldLe :=
  ⟨fun _ _ _ h1 h2 => jsStrLe_trans _ _ _ h1 h2⟩

mutual

/-- Model of `sortDeep`: recursively sort object keys (JS `Object.keys(...)
.sort()` with the default code-unit comparator), recursing into array elements
and field values.  Sorting keys commutes with recursing into the values, so
the recursion is applied to the fields first and the (key-only) sort second. -/
def sortDeep : Json → Json
  | .null => .null
  | .bool b => .bool b
  | .num n => .num n
  | .str s => .str s
  | .arr xs => .arr (sortDeepList xs)
  | .obj kvs => .obj (List.insertionSort fieldLe (sortDeepFields kvs))

/-- `sortDeep` mapped over array elements. -/
def sortDeepList : List Json → List Json
  | [] => []
  | x :: xs => sortDeep x :: sortDeepList xs

/-- `sortDeep` mapped over object field values. -/
def sortDeepFields : List (String × Json) → List (String × Json)
  | [] => []
  | kv :: kvs => (kv.1, sortDeep kv.2) :: sortDeepFields kvs

end

/-- One hex digit as `JSON.stringify` prints it in a `\u00XX` escape. -/
def hexDigit (n : Nat) : Char := if n < 10 then Char.ofNat (48 + n) else Char.ofNat (87 + n)

/-- JSON string escaping of one character, as `JSON.stringify` performs it. -/
def escChar (c : Char) : List Char :=
  if c = '"' then ['\\', '"']
  else if c = '\\' then ['\\', '\\']
  else if c = '\x08' then ['\\', 'b']
  else if c = '\x09' then ['\\', 't']
  else if c = '\x0a' then ['\\', 'n']
  else if c = '\x0c' then ['\\', 'f']
  else if c = '\x0d' then ['\\', 'r']
  else if c.toNat < 32 then ['\\', 'u', '0', '0', hexDigit (c.toNat / 16), hexDigit (c.toNat % 16)]
  else [c]

/-- A JSON string literal with its quotes. -/
def quoteStr (s : String) : String := "\"" ++ String.mk (s.data.bind escChar) ++ "\""

mutual

/-- Model of `JSON.stringify` on the JSON model: no inter-token whitespace,
standard number and string encodings. -/
def stringify : Json → String
  | .null => "null"
  | .bool true => "true"
  | .bool false => "false"
  | .num n => toString n
  | .str s => quoteStr s
  | .arr xs => "[" ++ stringifyElems xs ++ "]"
  | .obj kvs => "\x7b" ++ stringifyFields kvs ++ "\x7d"

/-- Comma-separated array elements. -/
def stringifyElems : List Json → String
  | [] => ""
  | [x] => stringify x
  | x :: y :: xs => stringify x ++ "," ++ stringifyElems (y :: xs)

/-- Comma-separated `"key":value` fields. -/
def stringifyFields : List (String × Json) → String
  | [] => ""
  | [kv] => quoteStr kv.1 ++ ":" ++ stringify kv.2
  | kv :: kv2 :: kvs => quoteStr kv.1 ++ ":" ++ stringify kv.2 ++ "," ++ stringifyFields (kv2 :: kvs)

end

/-- Model of `canonicalJson`: `JSON.stringify(sortDeep(obj))`, the canonical
serialization shared by the signer, the index builder and the installer. -/
def canonicalJson (v : Json) : String := stringify (sortDeep v)

/-- Adjacent-pair key ordering of a key list. -/
def keysChain : List String → Bool
  | [] => true
  | [_] => true
  | a :: b :: r => jsStrLe a b && keysChain (b :: r)

mutual

/-- Every object in the value has its keys in ascending JS-string order, at
every depth. -/
def keysSorted : Json → Bool
  | .null => true
  | .bool _ => true
  | .num _ => true
  | .str _ => true
  | .arr xs => keysSortedList xs
  | .obj kvs => keysChain (kvs.map Prod.fst) && keysSortedFields kvs

/-- `keysSorted` over array elements. -/
def keysSortedList : List Json → Bool
  | [] => true
  | x :: xs => keysSorted x && keysSortedList xs

/-- `keysSorted` over object field values. -/
def keysSortedFields : List (String × Json) → Bool
  | [] => true
  | kv :: kvs => keysSorted kv.2 && keysSortedFields kvs

end

theorem sortDeepList_eq_map (xs : List Json) : sortDeepList xs = xs.map sortDeep := by
  induction xs with
  | nil => rfl
  | cons x r ih => simp [sortDeepList, ih]

theorem sortDeepFields_eq_map (kvs : List (String × Json)) :
    sortDeepFields kvs = kvs.map (fun kv => (kv.1, sortDeep kv.2)) := by
  induction kvs with
  | nil => rfl
  | cons kv r ih => simp [sortDeepFields, ih]

theorem sortDeepFields_of_fixed (l : List (String × Json))
    (h : ∀ kv ∈ l, sortDeep kv.2 = kv.2) : sortDeepFields l = l := by
  induction l with
  | nil => rfl
  | cons kv r ih =>
    rw [sortDeepFields, h kv (by simp), ih (fun x hx => h x (by simp [hx]))]

theorem sortDeepList_of_fixed (l : List Json)
    (h : ∀ x ∈ l, sortDeep x = x) : sortDeepList l = l := by
  induction l with
  | nil => rfl
  | cons x r ih =>
    rw [sortDeepList, h x (by simp), ih (fun y hy => h y (by simp [hy]))]

theorem keysSortedList_of_forall (l : List Json)
    (h : ∀ x ∈ l, keysSorted x = true) : keysSortedList l = true := by
  induction l with
  | nil => rfl
  | cons x r ih =>
    rw [keysSortedList, h x (by simp), ih (fun y hy => h y (by simp [hy]))]
    rfl

theorem keysSortedFields_of_forall (l : List (String × Json))
    (h : ∀ kv ∈ l, keysSorted kv.2 = true) : keysSortedFields l = true := by
  induction l with
  | nil => rfl
  | cons kv r ih =>
    rw [keysSortedFields, h kv (by simp), ih (fun x hx => h x (by simp [hx]))]
    rfl

theorem keysChain_of_sorted (l : List (String × Json))
    (h : List.Sorted fieldLe l) : keysChain (l.map Prod.fst) = true := by
  induction l with
  | nil => rfl
  | cons kv r ih =>
    cases r with
    | nil => rfl
    | cons kv2 r2 =>
      rw [List.map_cons, List.map_cons, keysChain]
      have h1 : fieldLe kv kv2 := (List.sorted_cons.mp h).1 kv2 (by simp)
      have h2 := ih (List.sorted_cons.mp h).2
      rw [List.map_cons] at h2
      rw [h2]
      unfold fieldLe at h1
      rw [h1]
      rfl

theorem sortDeep_idem : ∀ v, sortDeep (sortDeep v) = sortDeep v := by
  intro v
  induction v using Json.inductionOn with
  | hnull => rfl
  | hbool b => rfl
  | hnum n => rfl
  | hstr s => rfl
  | harr xs ih =>
    rw [sortDeep, sortDeep]
    rw [sortDeepList_of_fixed]
    intro x hx
    rw [sortDeepList_eq_map] at hx
    obtain ⟨y, hy, rfl⟩ := List.mem_map.mp hx
    exact ih y hy
  | hobj kvs ih =>
    rw [sortDeep, sortDeep]
    have hfix : sortDeepFields (List.insertionSort fieldLe (sortDeepFields kvs)) =
        List.insertionSort fieldLe (sortDeepFields kvs) := by
      apply sortDeepFields_of_fixed
      intro kv hkv
      have hmem : kv ∈ sortDeepFields kvs :=
        (List.perm_insertionSort fieldLe (sortDeepFields kvs)).mem_iff.mp hkv
      rw [sortDeepFields_eq_map] at hmem
      obtain ⟨y, hy, rfl⟩ := List.mem_map.mp hmem
      exact ih y hy
    rw [hfix, List.Sorted.insertionSort_eq (List.sorted_insertionSort fieldLe _)]

theorem keysSorted_sortDeep : ∀ v, keysSorted (sortDeep v) = true := by
  intro v
  induction v using Json.inductionOn with
  | hnull => rfl
  | hbool b => rfl
  | hnum n => rfl
  | hstr s => rfl
  | harr xs ih =>
    rw [sortDeep, keysSorted]
    apply keysSortedList_of_forall
    intro x hx
    rw [sortDeepList_eq_map] at hx
    obtain ⟨y, hy, rfl⟩ := List.mem_map.mp hx
    exact ih y hy
  | hobj kvs ih =>
    rw [sortDeep, keysSorted]
    have h1 : keysChain ((List.insertionSort fieldLe (sortDeepFields kvs)).map Prod.fst) = true :=
      keysChain_of_sorted _ (List.sorted_insertionSort fieldLe _)
    have h2 : keysSortedFields (List.insertionSort fieldLe (sortDeepFields kvs)) = true := by
      apply keysSortedFields_of_forall
      intro kv hkv
      have hmem : kv ∈ sortDeepFields kvs :=
        (List.perm_insertionSort fieldLe (sortDeepFields kvs)).mem_iff.mp hkv
      rw [sortDeepFields_eq_map] at hmem
      obtain ⟨y, hy, rfl⟩ := List.mem_map.mp hmem
      exact ih y hy
    rw [h1, h2]
    rfl

/-- C7: canonicalJson is idempotent through a parse round trip — for any
parse function that inverts the canonical serialization of `v` (as
`JSON.parse` does, returning the key-sorted tree the string spells),
`canonicalJson v = canonicalJson (parse (canonicalJson v))` — and the
canonicalizer sorts object keys recursively at every depth while preserving
array element order. -/
theorem canonicalJson_round_trip (parse : String → Json) (v : Json)
    (hparse : parse (canonicalJson v) = sortDeep v) :
    canonicalJson v = canonicalJson (parse (canonicalJson v))
      ∧ keysSorted (sortDeep v) = true
      ∧ ∀ xs : List Json, sortDeep (Json.arr xs) = Json.arr (xs.map sortDeep) := by
  refine ⟨?_, keysSorted_sortDeep v, fun xs => ?_⟩
  · rw [hparse]
    unfold canonicalJson
    rw [sortDeep_idem]
  · rw [sortDeep, sortDeepList_eq_map]

/-- Value of a hex digit, for a JSON `\uXXXX` escape. -/
def hexVal (c : Char) : Option Nat :=
  if 48 ≤ c.toNat ∧ c.toNat ≤ 57 then some (c.toNat - 48)
  else if 97 ≤ c.toNat ∧ c.toNat ≤ 102 then some (c.toNat - 87)
  else if 65 ≤ c.toNat ∧ c.toNat ≤ 70 then some (c.toNat - 55)
  else none

/-- Parse the body of a JSON string literal after its opening quote,
returning the decoded characters and the remainder after the closing quote. -/
def parseStringBody : List Char → Option (List Char × List Char)
  | [] => none
  | c :: cs =>
    if c = '"' then some ([], cs)
    else if c = '\\' then
      match cs with
      | [] => none
      | e :: cs2 =>
        if e = 'u' then
          match cs2 with
          | h1 :: h2 :: h3 :: h4 :: cs3 =>
            match hexVal h1, hexVal h2, hexVal h3, hexVal h4 with
            | some a, some b, some c2, some d =>
              match parseStringBody cs3 with
              | some (out, rest) =>
                some (Char.ofNat (((a * 16 + b) * 16 + c2) * 16 + d) :: out, rest)
              | none => none
            | _, _, _, _ => none
          | _ => none
        else
          match (if e = '"' then some '"' else if e = '\\' then some '\\'
                 else if e = '/' then some '/' else if e = 'b' then some '\x08'
                 else if e = 'f' then some '\x0c' else if e = 'n' then some '\x0a'
                 else if e = 'r' then some '\x0d' else if e = 't' then some '\x09'
                 else none) with
          | some d =>
            match parseStringBody cs2 with
            | some (out, rest) => some (d :: out, rest)
            | none => none
          | none => none
    else
      match parseStringBody cs with
      | some (out, rest) => some (c :: out, rest)
      | none => none

/-- Decimal value of a digit run. -/
def digitsVal (ds : List Char) : Nat := ds.foldl (fun a c => a * 10 + (c.toNat - 48)) 0

mutual

/-- Fuel-bounded recursive-descent JSON parser: the model of `JSON.parse` on
the whitespace-free strings the canonical serializer emits. -/
def parseVal : Nat → List Char → Option (Json × List Char)
  | 0, _ => none
  | _ + 1, [] => none
  | fuel + 1, c :: cs =>
    if c = 'n' then
      match cs with
      | 'u' :: 'l' :: 'l' :: rest => some (.null, rest)
      | _ => none
    else if c = 't' then
      match cs with
      | 'r' :: 'u' :: 'e' :: rest => some (.bool true, rest)
      | _ => none
    else if c = 'f' then
      match cs with
      | 'a' :: 'l' :: 's' :: 'e' :: rest => some (.bool false, rest)
      | _ => none
    else if c = '"' then
      match parseStringBody cs with
      | some (out, rest) => some (.str (String.mk out), rest)
      | none => none
    else if c = '[' then
      match cs with
      | ']' :: rest => some (.arr [], rest)
      | _ =>
        match parseElems fuel cs with
        | some (xs, rest) => some (.arr xs, rest)
        | none => none
    else if c = Char.ofNat 123 then
      match cs with
      | [] => none
      | d :: rest2 =>
        if d = Char.ofNat 125 then some (.obj [], rest2)
        else
          match parseFields fuel (d :: rest2) with
          | some (kvs, rest) => some (.obj kvs, rest)
          | none => none
    else
      match (if c = '-' then ((-1 : Int), cs) else (1, c :: cs)).2.span
          (fun d => decide (48 ≤ d.toNat ∧ d.toNat ≤ 57)) with
      | (ds, rest) =>
        if ds.isEmpty then none
        else
          some (.num ((if c = '-' then ((-1 : Int), cs) else (1, c :: cs)).1 *
            (digitsVal ds : Int)), rest)

/-- Elements of a non-empty JSON array, after the opening bracket. -/
def parseElems : Nat → List Char → Option (List Json × List Char)
  | 0, _ => none
  | fuel + 1, cs =>
    match parseVal fuel cs with
    | some (v, rest) =>
      match rest with
      | ',' :: rest2 =>
        match parseElems fuel rest2 with
        | some (xs, rest3) => some (v :: xs, rest3)
        | none => none
      | ']' :: rest2 => some ([v], rest2)
      | _ => none
    | none => none

/-- Fields of a non-empty JSON object, after the opening brace. -/
def parseFields : Nat → List Char → Option (List (String × Json) × List Char)
  | 0, _ => none
  | fuel + 1, cs =>
    match cs with
    | '"' :: cs2 =>
      match parseStringBody cs2 with
      | some (key, rest) =>
        match rest with
        | ':' :: rest2 =>
          match parseVal fuel rest2 with
          | some (v, rest3) =>
            match rest3 with
            | [] => none
            | ',' :: rest4 =>
              match parseFields fuel rest4 with
              | some (kvs, rest5) => some ((String.mk key, v) :: kvs, rest5)
              | none => none
            | d :: rest4 =>
              if d = Char.ofNat 125 then some ([(String.mk key, v)], rest4) else none
          | none => none
        | _ => none
      | none => none
    | _ => none

end

/-- Model of `JSON.parse` on a full document, with fuel ample for any
document of its length. -/
def parseJson (s : String) : Json :=
  match parseVal (s.length + 1) s.data with
  | some (v, []) => v
  | _ => .null

/-- Concrete JSON value for the C7 witness: unsorted keys at two depths, an
array whose order must be preserved, and all scalar kinds. -/
def c7val : Json :=
  .obj [("b", .num 1),
        ("a", .arr [.obj [("z", .null), ("y", .bool true)], .str "hi", .num (-5)])]

/-- Witness for C7 at `c7val`, with the parse function instantiated by the
executable recursive-descent parser. -/
theorem canonicalJson_round_trip_witness :
    canonicalJson c7val = canonicalJson (parseJson (canonicalJson c7val))
      ∧ keysSorted (sortDeep c7val) = true
      ∧ ∀ xs : List Json, sortDeep (Json.arr xs) = Json.arr (xs.map sortDeep) :=
  canonicalJson_round_trip parseJson c7val (by rfl)

/-- Suffix test on strings by their characters (the model's `endsWith`). -/
def strEndsWith (s suffix : String) : Bool := suffix.data.isSuffixOf s.data

structure SkillVersionT where
  version : String
  archive : String
  sha256 : String
  signature : String
  size : Nat
  published : String
deriving DecidableEq

structure SkillEntryT where
  name : String
  description : String
  authorName : String
  authorGithub : String
  capRequired : List String
  capOptional : Option (List String)
  tags : List String
  category : String
  trust_level : String
  latest : String
  versions : List (String × SkillVersionT)
deriving DecidableEq

structure SignedCatalogIndexT where
  version : Nat
  updated : String
  skills : List SkillEntryT
  signature : String
deriving DecidableEq

/-- JSON image of a SkillVersion record, with its literal key order. -/
def versionToJson (v : SkillVersionT) : Json :=
  .obj [("version", .str v.version), ("archive", .str v.archive), ("sha256", .str v.sha256),
        ("signature", .str v.signature), ("size", .num v.size), ("published", .str v.published)]

/-- JSON image of a SkillEntry record, the optional capabilities spread
included. -/
def entryToJson (e : SkillEntryT) : Json :=
  .obj [("name", .str e.name), ("description", .str e.description),
    ("author", .obj [("name", .str e.authorName), ("github", .str e.authorGithub)]),
    ("capabilities", .obj ([("required", .arr (e.capRequired.map Json.str))] ++
      (match e.capOptional with
       | some o => [("optional", .arr (o.map Json.str))]
       | none => []))),
    ("tags", .arr (e.tags.map Json.str)), ("category", .str e.category),
    ("trust_level", .str e.trust_level), ("latest", .str e.latest),
    ("versions", .obj (e.versions.map (fun kv => (kv.1, versionToJson kv.2))))]

/-- JSON image of the index body `{version, updated, skills}` — the signed
object, the signature field excluded. -/
def indexBodyJson (version : Nat) (updated : String) (skills : List SkillEntryT) : Json :=
  .obj [("version", .num version), ("updated", .str updated),
        ("skills", .arr (skills.map entryToJson))]

/-- Manifest fields the index builder reads from an archive. -/
structure ManifestT where
  version : String
  description : String
  authorName : String
  authorGithub : String
  capRequired : List String
  capOptional : Option (List String)
  tags : Option (List String)
  category : Option String
  trust_level : Option String
deriving DecidableEq

/-- An archive file of a skill directory, with the data `hashArchive`,
`stat` and `extractManifestFromArchive` return for it. -/
structure ArchiveFileT where
  fileName : String
  sha256 : String
  size : Nat
  mtime : String
  manifest : ManifestT
deriving DecidableEq

/-- One entry of the archives directory, as `readdir` + `stat` see it. -/
structure SkillDirT where
  dirName : String
  isDir : Bool
  archives : List ArchiveFileT
deriving DecidableEq

/-- The archives directory: what the file system under `archivesDir` holds. -/
abbrev DirModel := List SkillDirT

/-- JS default sort order on strings. -/
def strLeP (a b : String) : Prop := jsStrLe a b = true

instance : DecidableRel strLeP := fun a b => by unfold strLeP; infer_instance

/-- Order of `archiveFiles.sort()`. -/
def archLe (a b : ArchiveFileT) : Prop := jsStrLe a.fileName b.fileName = true

instance : DecidableRel archLe := fun a b => by unfold archLe; infer_instance

/-- Order of the final `entries.sort((a, b) => a.name.localeCompare(b.name))`
(modelled by code-unit comparison; `localeCompare` collation can differ in
exotic locales, which affects only the order of the output and never its
membership). -/
def entryLe (a b : SkillEntryT) : Prop := jsStrLe a.name b.name = true

instance : DecidableRel entryLe := fun a b => by unfold entryLe; infer_instance

/-- Order of `skillDirs.sort()`. -/
def dirLe (a b : SkillDirT) : Prop := jsStrLe a.dirName b.dirName = true

instance : DecidableRel dirLe := fun a b => by unfold dirLe; infer_instance

/-- JS object property assignment `versions[version] = sv`: replace in place
when the key exists, append otherwise. -/
def upsert (versions : List (String × SkillVersionT)) (k : String) (v : SkillVersionT) :
    List (String × SkillVersionT) :=
  if versions.any (fun kv => kv.1 == k) then
    versions.map (fun kv => if kv.1 == k then (k, v) else kv)
  else versions ++ [(k, v)]

/-- One iteration of the per-skill archive loop of `scanArchives`: record the
version, and capture the manifest when the version strictly exceeds the
running lexical maximum. -/
def scanStep (signData : String → String → String) (priv : String) (fixedTs : Option String)
    (dirName : String) (acc : List (String × SkillVersionT) × Option ManifestT × String)
    (a : ArchiveFileT) : List (String × SkillVersionT) × Option ManifestT × String :=
  let version := a.manifest.version
  let sv : SkillVersionT :=
    { version := version
      archive := "archives/" ++ dirName ++ "/" ++ a.fileName
      sha256 := a.sha256
      signature := signData a.sha256 priv
      size := a.size
      published := fixedTs.getD a.mtime }
  let versions := upsert acc.1 version sv
  if jsStrLt acc.2.2 version then (versions, some a.manifest, version)
  else (versions, acc.2.1, acc.2.2)

/-- Per-skill-directory body of `scanArchives`: skip non-directories and
directories without `.tar.gz` archives, fold over the sorted archives, and
produce a SkillEntry only if some manifest was captured. -/
def scanSkillDir (signData : String → String → String) (priv : String)
    (fixedTs : Option String) (d : SkillDirT) : Option SkillEntryT :=
  if !d.isDir then none
  else
    let archiveFiles := List.insertionSort archLe
      (d.archives.filter (fun a => strEndsWith a.fileName ".tar.gz"))
    if archiveFiles.isEmpty then none
    else
      let st := archiveFiles.foldl (scanStep signData priv fixedTs d.dirName) ([], none, "0.0.0")
      match st.2.1 with
      | none => none
      | some m =>
        some { name := d.dirName
               description := m.description
               authorName := m.authorName
               authorGithub := m.authorGithub
               capRequired := List.insertionSort strLeP m.capRequired
               capOptional := m.capOptional.map (fun o => List.insertionSort strLeP o)
               tags := List.insertionSort strLeP (m.tags.getD [])
               category := m.category.getD "uncategorized"
               trust_level := m.trust_level.getD "community"
               latest := st.2.2
               versions := st.1 }

/-- Model of `scanArchives`: enumerate the directory entries in sorted order,
build one optional entry per skill directory, and sort the result by name. -/
def scanArchives (signData : String → String → String) (priv : String)
    (fixedTs : Option String) (dir : DirModel) : List SkillEntryT :=
  List.insertionSort entryLe
    ((List.insertionSort dirLe dir).filterMap (scanSkillDir signData priv fixedTs))

/-- Model of `buildIndex`: scan the archives, then sign the canonical JSON of
the body `{version: 1, updated, skills}`. -/
def buildIndex (signData : String → String → String) (priv : String) (dir : DirModel)
    (timestampOpt : Option String) (now : String) : SignedCatalogIndexT :=
  let skills := scanArchives signData priv timestampOpt dir
  let timestamp := timestampOpt.getD now
  { version := 1
    updated := timestamp
    skills := skills
    signature := signData (canonicalJson (indexBodyJson 1 timestamp skills)) priv }

/-- Model of `signIndex` of the sign package: canonical-JSON the body, sign
the bytes, return `{index, signature}`. -/
def signIndex (signData : String → String → String) (priv : String) (body : Json) :
    Json × String :=
  (body, signData (canonicalJson body) priv)

/-- Model of `verifyIndex` of the sign package. -/
def verifyIndex (verifyData : String → String → String → Bool) (pub : String)
    (si : Json × String) : Bool :=
  verifyData (canonicalJson si.1) si.2 pub

/-- Model of `verifySignedIndex`: strip the signature field, canonicalize the
rest, verify. -/
def verifySignedIndex (verifyData : String → String → String → Bool) (pub : String)
    (si : SignedCatalogIndexT) : Bool :=
  verifyData (canonicalJson (indexBodyJson si.version si.updated si.skills)) si.signature pub

/-- C6: for an Ed25519 keypair (pub, priv) — that is, for any abstract
sign/verify pair satisfying the keypair correctness property that
verification accepts what signing produced — signing the canonical JSON of a
body and verifying it round-trips: `verifyIndex (signIndex body priv) pub`
and `verifySignedIndex (buildIndex ...) pub` are both true. -/
theorem sign_verify_round_trip (signData : String → String → String)
    (verifyData : String → String → String → Bool) (priv pub : String)
    (hkeys : ∀ m : String, verifyData m (signData m priv) pub = true) :
    (∀ body : Json, verifyIndex verifyData pub (signIndex signData priv body) = true)
      ∧ ∀ (dir : DirModel) (tsOpt : Option String) (now : String),
        verifySignedIndex verifyData pub (buildIndex signData priv dir tsOpt now) = true := by
  constructor
  · intro body
    exact hkeys _
  · intro dir tsOpt now
    exact hkeys _

/-- Witness for C6 with a concrete correct pair (sign returns the message,
verify compares), a concrete body and a concrete directory. -/
theorem sign_verify_round_trip_witness :
    verifyIndex (fun m s _ => m == s) "pub"
        (signIndex (fun m _ => m) "priv" (Json.obj [("k", Json.num 2)])) = true
      ∧ verifySignedIndex (fun m s _ => m == s) "pub"
        (buildIndex (fun m _ => m) "priv" [] none "2024-01-01") = true :=
  ⟨(sign_verify_round_trip (fun m _ => m) (fun m s _ => m == s) "priv" "pub"
      (fun m => by simp)).1 (Json.obj [("k", Json.num 2)]),
   (sign_verify_round_trip (fun m _ => m) (fun m s _ => m == s) "priv" "pub"
      (fun m => by simp)).2 [] none "2024-01-01"⟩

theorem scanSkillDir_some_name (signData : String → String → String) (priv : String)
    (fixedTs : Option String) (d : SkillDirT) (e : SkillEntryT)
    (h : scanSkillDir signData priv fixedTs d = some e) : e.name = d.dirName := by
  simp only [scanSkillDir] at h
  split at h
  · simp at h
  split at h
  · simp at h
  split at h
  · simp at h
  · rename_i m hm
    injection h with h1
    rw [← h1]

theorem scanStep_fold_low (signData : String → String → String) (priv : String)
    (fixedTs : Option String) (dn : String) :
    ∀ (l : List ArchiveFileT) (vs : List (String × SkillVersionT)),
      (∀ a ∈ l, jsStrLt "0.0.0" a.manifest.version = false) →
      (l.foldl (scanStep signData priv fixedTs dn) (vs, none, "0.0.0")).2.1 = none := by
  intro l
  induction l with
  | nil => intro vs _; rfl
  | cons a r ih =>
    intro vs h
    have ha := h a (by simp)
    rw [List.foldl_cons,
      show scanStep signData priv fixedTs dn (vs, none, "0.0.0") a =
        (upsert vs a.manifest.version
          { version := a.manifest.version
            archive := "archives/" ++ dn ++ "/" ++ a.fileName
            sha256 := a.sha256
            signature := signData a.sha256 priv
            size := a.size
            published := fixedTs.getD a.mtime }, none, "0.0.0") from by
        unfold scanStep
        rw [if_neg (by simp [ha])]]
    exact ih _ (fun x hx => h x (by simp [hx]))

/-- C10: a skill directory all of whose `.tar.gz` archives carry manifest
version strings lexically at or below "0.0.0" is omitted from the built
index entirely — the running lexical maximum starts at "0.0.0" and the
manifest is captured only when a version compares strictly greater, so no
SkillEntry is produced for that skill name. -/
theorem low_version_skill_omitted (signData : String → String → String) (priv : String)
    (dir : DirModel) (tsOpt : Option String) (now : String) (s : String)
    (hlow : ∀ d ∈ dir, d.dirName = s →
      ∀ a ∈ d.archives, strEndsWith a.fileName ".tar.gz" = true →
        jsStrLt "0.0.0" a.manifest.version = false) :
    ∀ e ∈ (buildIndex signData priv dir tsOpt now).skills, e.name ≠ s := by
  intro e he hname
  have he1 : e ∈ scanArchives signData priv tsOpt dir := he
  have he2 : e ∈ (List.insertionSort dirLe dir).filterMap
      (scanSkillDir signData priv tsOpt) :=
    (List.perm_insertionSort entryLe _).mem_iff.mp he1
  obtain ⟨d, hd, hfd⟩ := List.mem_filterMap.mp he2
  have hdmem : d ∈ dir := (List.perm_insertionSort dirLe _).mem_iff.mp hd
  have hdname : d.dirName = s := by rw [← scanSkillDir_some_name _ _ _ _ _ hfd, hname]
  have hlowd := hlow d hdmem hdname
  simp only [scanSkillDir] at hfd
  split at hfd
  · simp at hfd
  split at hfd
  · simp at hfd
  split at hfd
  · rename_i hnone
    simp at hfd
  · rename_i m hm
    rw [scanStep_fold_low signData priv tsOpt d.dirName _ []
      (fun a ha => hlowd a
        (List.mem_filter.mp ((List.perm_insertionSort archLe _).mem_iff.mp ha)).1
        (List.mem_filter.mp ((List.perm_insertionSort archLe _).mem_iff.mp ha)).2)] at hm
    exact absurd hm (by simp)

/-- Concrete archives directory for the C10 witness: one skill "solo" whose
only archive carries manifest version exactly "0.0.0". -/
def c10dir : DirModel :=
  [⟨"solo", true, [⟨"solo-0.0.0.tar.gz", "h", 3, "m",
    ⟨"0.0.0", "d", "a", "g", [], none, none, none, none⟩⟩]⟩]

/-- Witness for C10 at `c10dir`: no entry named "solo" is produced. -/
theorem low_version_skill_omitted_witness :
    (buildIndex (fun m _ => m) "priv" c10dir none "2024-01-01").skills.all
      (fun e => e.name != "solo") = true := by
  rw [List.all_eq_true]
  intro e he
  simp only [bne_iff_ne, ne_eq]
  exact low_version_skill_omitted (fun m _ => m) "priv" c10dir none "2024-01-01" "solo"
    (fun d hd _ a ha _ => by
      simp only [c10dir, List.mem_singleton] at hd
      subst hd
      simp only [List.mem_singleton] at ha
      subst ha
      decide) e he


structure KithkitMetadataT where
  name : String
  version : String
  source : String
  sha256 : String
  signature : String
  installed_at : String
  trust_level : String
deriving DecidableEq

structure RevocationEntryT where
  name : String
  version : String
  reason : String
  revoked_at : String
  severity : String
deriving DecidableEq

structure SignedRevocationListT where
  entries : List RevocationEntryT
  signature : String
deriving DecidableEq

/-- File contents: raw bytes of an extracted file, or the metadata record a
`.kithkit` sidecar holds (`JSON.stringify(metadata, null, 2)` is injective on
records, so the record stands for the file body; any other content fails the
sidecar parse). -/
inductive FData where
  | bytes (bs : List Nat)
  | meta (m : KithkitMetadataT)
deriving DecidableEq

/-- The local file system: a partial map from paths to file contents. -/
def FS := PathC → Option FData

/-- Observable operations of an install, in order.  `fetch` records an
invocation of the injected fetchArchive callback. -/
inductive FsOp where
  | write (p : PathC) (d : FData)
  | rmTree (p : PathC)
  | fetch (url : String)
deriving DecidableEq

/-- Effect of one operation: `write` creates or replaces one file; `rmTree`
models `rm(dir, { recursive: true, force: true })`; `fetch` touches nothing. -/
def applyOp (fs : FS) : FsOp → FS
  | .write p d => fun q => if q = p then some d else fs q
  | .rmTree p => fun q => if p.isPrefixOf q then none else fs q
  | .fetch _ => fs

def applyOps (fs : FS) (ops : List FsOp) : FS := ops.foldl applyOp fs

def METADATA_FILENAME : List Nat := strBytes ".kithkit"

/-- Model of `readMetadata`: read and parse the sidecar; a missing file or
non-metadata content reads as null. -/
def readMetadata (installDir : PathC) (fs : FS) : Option KithkitMetadataT :=
  match fs (installDir ++ [METADATA_FILENAME]) with
  | some (.meta m) => some m
  | _ => none

/-- Model of `isRevoked`: exact match on both name and version; `some entry`
models `\x7brevoked: true, entry\x7d`. -/
def isRevoked (list : SignedRevocationListT) (name version : String) :
    Option RevocationEntryT :=
  list.entries.find? (fun e => e.name == name && e.version == version)

inductive IntegrityRes where
  | valid
  | invalid (error : String)
deriving DecidableEq

/-- Ambient parameters of the install model: the SHA-256 hex digest and the
Ed25519 check over the (hex-decoded) digest — both node:crypto, external to
the repository — the clock reading recorded as installed_at, and the
extraction fuel of the model. -/
structure InstallParams where
  sha256Hex : List Nat → String
  verifyHashSig : String → String → String → Bool
  now : String
  extractFuel : Nat

/-- Model of `verifyArchiveIntegrity`: compare the computed digest with the
expected one, then check the Ed25519 signature of the digest. -/
def verifyArchiveIntegrity (P : InstallParams) (archiveData : List Nat)
    (expectedSha256 expectedSignature publicKeyBase64 : String) : IntegrityRes :=
  let actualHash := P.sha256Hex archiveData
  if actualHash ≠ expectedSha256 then
    .invalid ("Archive hash mismatch — expected " ++ expectedSha256 ++ ", got " ++ actualHash)
  else if !(P.verifyHashSig actualHash expectedSignature publicKeyBase64) then
    .invalid "Archive signature verification failed — archive may have been tampered with"
  else .valid

structure InstallResultT where
  success : Bool
  skillName : String
  version : String
  installDir : PathC
  error : Option String
deriving DecidableEq

structure InstallOptionsT where
  skillName : String
  versionOpt : Option String
  index : SignedCatalogIndexT
  publicKeyBase64 : String
  fetchArchive : String → Except String (List Nat)
  skillsDir : PathC
  revocationList : Option SignedRevocationListT
  source : Option String

/-- Text of the extractor's throw messages, for the wrapped install error. -/
def bytesToString (l : List Nat) : String := String.mk (l.map Char.ofNat)

def extractErrMessage : ExtractErr → String
  | .absolutePath nm => "Path traversal detected: absolute path in archive: " ++ bytesToString nm
  | .dotdotComponent nm =>
    "Path traversal detected: '..' component in archive entry: " ++ bytesToString nm
  | .escapesTarget nm =>
    "Path traversal detected: resolved path escapes target directory: " ++ bytesToString nm
  | .outOfFuel => "model fuel exhausted"

/-- Model of `installSkill`: the nine steps of the orchestrator, returning
the InstallResult together with the trace of operations performed. -/
def installSkill (P : InstallParams) (o : InstallOptionsT) (fs : FS) :
    InstallResultT × List FsOp :=
  let installDir := o.skillsDir ++ [strBytes o.skillName]
  match o.index.skills.find? (fun s => s.name == o.skillName) with
  | none =>
    ({ success := false, skillName := o.skillName, version := o.versionOpt.getD "",
       installDir := installDir,
       error := some ("Skill '" ++ o.skillName ++ "' not found in catalog index") }, [])
  | some skillEntry =>
    let targetVersion := o.versionOpt.getD skillEntry.latest
    match skillEntry.versions.lookup targetVersion with
    | none =>
      ({ success := false, skillName := o.skillName, version := targetVersion,
         installDir := installDir,
         error := some ("Version '" ++ targetVersion ++ "' not found for skill '" ++
           o.skillName ++ "'") }, [])
    | some versionEntry =>
      match o.revocationList.bind (fun list => isRevoked list o.skillName targetVersion) with
      | some entry =>
        ({ success := false, skillName := o.skillName, version := targetVersion,
           installDir := installDir,
           error := some ("Skill '" ++ o.skillName ++ "' v" ++ targetVersion ++
             " is revoked: " ++ entry.reason ++ " (severity: " ++ entry.severity ++ ")") }, [])
      | none =>
        match o.fetchArchive versionEntry.archive with
        | .error message =>
          ({ success := false, skillName := o.skillName, version := targetVersion,
             installDir := installDir,
             error := some ("Failed to fetch archive: " ++ message) },
           [.fetch versionEntry.archive])
        | .ok archiveData =>
          match verifyArchiveIntegrity P archiveData versionEntry.sha256
              versionEntry.signature o.publicKeyBase64 with
          | .invalid err =>
            ({ success := false, skillName := o.skillName, version := targetVersion,
               installDir := installDir, error := some err }, [.fetch versionEntry.archive])
          | .valid =>
            if (readMetadata installDir fs).any (fun m => m.version == targetVersion) then
              ({ success := false, skillName := o.skillName, version := targetVersion,
                 installDir := installDir,
                 error := some ("Skill '" ++ o.skillName ++ "' v" ++ targetVersion ++
                   " is already installed") }, [.fetch versionEntry.archive])
            else
              match extractArchive archiveData installDir P.extractFuel with
              | .error ew =>
                ({ success := false, skillName := o.skillName, version := targetVersion,
                   installDir := installDir,
                   error := some ("Failed to extract archive: " ++ extractErrMessage ew.1) },
                 .fetch versionEntry.archive ::
                   (ew.2.map (fun w => FsOp.write w.1 (.bytes w.2)) ++ [.rmTree installDir]))
              | .ok pw =>
                ({ success := true, skillName := o.skillName, version := targetVersion,
                   installDir := installDir, error := none },
                 .fetch versionEntry.archive ::
                   (pw.2.map (fun w => FsOp.write w.1 (.bytes w.2)) ++
                     [.write (installDir ++ [METADATA_FILENAME])
                       (.meta ⟨o.skillName, targetVersion,
                         o.source.getD versionEntry.archive,
                         versionEntry.sha256, versionEntry.signature,
                         P.now, skillEntry.trust_level⟩)]))

theorem applyOp_fetch (fs : FS) (u : String) : applyOp fs (.fetch u) = fs := rfl

theorem getLast?_cons_concat {α : Type} (x a : α) (l : List α) :
    (x :: (l ++ [a])).getLast? = some a := by
  rw [← List.cons_append]
  exact List.getLast?_concat _

/-- Writes confined under `dir` are erased by the subsequent recursive removal
of `dir`: the cleanup (step 7 of `installSkill`) really does undo them. -/
theorem applyWrites_then_rm (dir : PathC) (ws : List (PathC × List Nat)) :
    ∀ (fs : FS), (∀ w ∈ ws, dir <+: w.1) →
      applyOps fs (ws.map (fun w => FsOp.write w.1 (.bytes w.2)) ++ [.rmTree dir]) =
        applyOp fs (.rmTree dir) := by
  induction ws with
  | nil => intro fs _; rfl
  | cons w r ih =>
    intro fs h
    simp only [List.map_cons, List.cons_append, applyOps, List.foldl_cons]
    have hr := ih (applyOp fs (.write w.1 (.bytes w.2)))
      (fun x hx => h x (List.mem_cons_of_mem _ hx))
    simp only [applyOps] at hr
    rw [hr]
    funext q
    simp only [applyOp]
    by_cases hq : dir.isPrefixOf q = true
    · rw [if_pos hq, if_pos hq]
    · rw [if_neg hq, if_neg hq]
      have hne : q ≠ w.1 := by
        intro hqw
        apply hq
        rw [hqw]
        exact List.isPrefixOf_iff_prefix.mpr (h w (List.mem_cons_self _ _))
      rw [if_neg hne]

/-- C1 (amended): atomicity of `installSkill` with respect to the metadata
sidecar.  On failure the trace performs no metadata write, and the file
system either is untouched or has only had `rm(installDir, recursive,
force)` applied (the failed-extraction cleanup); on success the final
operation of the trace is the metadata sidecar write, so the sidecar is
written only after extraction completes.  The original claim's "no sidecar
exists after a failed install" is refuted by
`install_leaves_stale_sidecar_counterexample`: a sidecar present before the
failed attempt survives it. -/
theorem install_frame (P : InstallParams) (o : InstallOptionsT) (fs : FS) :
    ((installSkill P o fs).1.success = false →
      (applyOps fs (installSkill P o fs).2 = fs ∨
        applyOps fs (installSkill P o fs).2 =
          applyOp fs (.rmTree (o.skillsDir ++ [strBytes o.skillName])))
      ∧ ∀ p m, FsOp.write p (.meta m) ∉ (installSkill P o fs).2)
    ∧ ((installSkill P o fs).1.success = true →
      ∃ m, (installSkill P o fs).2.getLast? =
        some (.write ((o.skillsDir ++ [strBytes o.skillName]) ++ [METADATA_FILENAME])
          (.meta m))) := by
  simp only [installSkill]
  split
  · exact ⟨fun _ => ⟨Or.inl rfl, by simp⟩, fun hs => by simp at hs⟩
  · rename_i skillEntry hfind
    split
    · exact ⟨fun _ => ⟨Or.inl rfl, by simp⟩, fun hs => by simp at hs⟩
    · rename_i versionEntry hver
      split
      · exact ⟨fun _ => ⟨Or.inl rfl, by simp⟩, fun hs => by simp at hs⟩
      · split
        · exact ⟨fun _ => ⟨Or.inl rfl, by simp⟩, fun hs => by simp at hs⟩
        · rename_i archiveData hfetch
          split
          · exact ⟨fun _ => ⟨Or.inl rfl, by simp⟩, fun hs => by simp at hs⟩
          · split
            · exact ⟨fun _ => ⟨Or.inl rfl, by simp⟩, fun hs => by simp at hs⟩
            · split
              · rename_i ew heq
                refine ⟨fun _ => ⟨Or.inr ?_, by simp⟩, fun hs => by simp at hs⟩
                have hws := extractLoop_writes_prefix archiveData
                  (o.skillsDir ++ [strBytes o.skillName]) P.extractFuel 0 [] [] (by simp)
                have heq2 : extractLoop archiveData (o.skillsDir ++ [strBytes o.skillName])
                    P.extractFuel 0 [] [] = .error ew := heq
                rw [heq2] at hws
                have hws2 : ∀ w ∈ ew.2, (o.skillsDir ++ [strBytes o.skillName]) <+: w.1 := hws
                exact applyWrites_then_rm _ ew.2 fs hws2
              · refine ⟨fun hf => by simp at hf, fun _ => ⟨_, getLast?_cons_concat _ _ _⟩⟩

def c1ver : SkillVersionT := ⟨"1.0.0", "https://k/s.tar.gz", "h", "sig", 0, "2024-01-01"⟩

def c1entry : SkillEntryT :=
  ⟨"s", "d", "a", "g", [], none, [], "c", "community", "1.0.0", [("1.0.0", c1ver)]⟩

def c1index : SignedCatalogIndexT := ⟨1, "2024-01-01", [c1entry], "isig"⟩

def c1P : InstallParams := ⟨fun _ => "h", fun _ _ _ => true, "t", 2⟩

def c1meta : KithkitMetadataT :=
  ⟨"s", "1.0.0", "https://k/s.tar.gz", "h", "sig", "t0", "community"⟩

def c1dir : PathC := [strBytes "skills", strBytes "s"]

/-- A file system on which skill `s` v1.0.0 is already installed: its
`.kithkit` sidecar is present. -/
def c1fs : FS := fun q => if q = c1dir ++ [METADATA_FILENAME] then some (.meta c1meta) else none

def c1fsEmpty : FS := fun _ => none

def c1opts : InstallOptionsT :=
  ⟨"s", none, c1index, "pk", fun _ => .ok [], [strBytes "skills"], none, none⟩

/-- C1 counterexample: a failed install can leave a metadata sidecar on disk.
Re-installing an already-installed version fails at step 6 of `installSkill`
(the dedup check), yet the pre-existing `.kithkit` sidecar survives, so "the
metadata sidecar file does not exist after a failed install" is false as
stated; what holds is that a failed install never *writes* a sidecar
(`install_frame`). -/
theorem install_leaves_stale_sidecar_counterexample :
    (installSkill c1P c1opts c1fs).1.success = false ∧
    applyOps c1fs (installSkill c1P c1opts c1fs).2 (c1dir ++ [METADATA_FILENAME]) =
      some (.meta c1meta) := by
  exact ⟨rfl, rfl⟩

/-- Witness for `install_frame`: both implications discharged on concrete
runs — the dedup-failure run of the counterexample setup, and a successful
run on an empty file system. -/
theorem install_frame_witness :
    ((applyOps c1fs (installSkill c1P c1opts c1fs).2 = c1fs ∨
      applyOps c1fs (installSkill c1P c1opts c1fs).2 =
        applyOp c1fs (.rmTree (c1opts.skillsDir ++ [strBytes c1opts.skillName]))) ∧
      ∀ p m, FsOp.write p (.meta m) ∉ (installSkill c1P c1opts c1fs).2) ∧
    (∃ m, (installSkill c1P c1opts c1fsEmpty).2.getLast? =
      some (.write ((c1opts.skillsDir ++ [strBytes c1opts.skillName]) ++ [METADATA_FILENAME])
        (.meta m))) :=
  ⟨(install_frame c1P c1opts c1fs).1 (by rfl),
   (install_frame c1P c1opts c1fsEmpty).2 (by rfl)⟩

/-- C3: when the supplied revocation list holds an entry matching the
requested skill name and the resolved target version exactly, `installSkill`
fails before fetching: the result is unsuccessful, the trace is empty (no
fetch, no writes), and the error message carries both the reason and the
severity of a matching entry. -/
theorem revoked_install_rejected (P : InstallParams) (o : InstallOptionsT) (fs : FS)
    (skillEntry : SkillEntryT) (versionEntry : SkillVersionT) (L : SignedRevocationListT)
    (hfind : o.index.skills.find? (fun s => s.name == o.skillName) = some skillEntry)
    (hver : skillEntry.versions.lookup (o.versionOpt.getD skillEntry.latest) = some versionEntry)
    (hrev : o.revocationList = some L)
    (hmatch : ∃ e ∈ L.entries, e.name = o.skillName ∧
      e.version = o.versionOpt.getD skillEntry.latest) :
    (installSkill P o fs).1.success = false
    ∧ (installSkill P o fs).2 = []
    ∧ ∃ e ∈ L.entries, e.name = o.skillName
      ∧ e.version = o.versionOpt.getD skillEntry.latest
      ∧ e.reason.data <:+: ((installSkill P o fs).1.error.getD "").data
      ∧ e.severity.data <:+: ((installSkill P o fs).1.error.getD "").data := by
  obtain ⟨e0, he0, hn0, hv0⟩ := hmatch
  have hne : isRevoked L o.skillName (o.versionOpt.getD skillEntry.latest) ≠ none := by
    intro hnone
    unfold isRevoked at hnone
    rw [List.find?_eq_none] at hnone
    exact (hnone e0 he0) (by simp [hn0, hv0])
  cases hre : isRevoked L o.skillName (o.versionOpt.getD skillEntry.latest) with
  | none => exact absurd hre hne
  | some e =>
    have hre' : L.entries.find?
        (fun x => x.name == o.skillName &&
          x.version == o.versionOpt.getD skillEntry.latest) = some e := hre
    have hmem := List.mem_of_find?_eq_some hre'
    have hpe := List.find?_some hre'
    simp only [Bool.and_eq_true, beq_iff_eq] at hpe
    obtain ⟨hen, hev⟩ := hpe
    simp only [installSkill, hfind, hver, hrev, Option.some_bind, hre]
    refine ⟨trivial, trivial, e, hmem, hen, hev, ?_, ?_⟩
    · refine ⟨("Skill '" ++ o.skillName ++ "' v" ++
        (o.versionOpt.getD skillEntry.latest) ++ " is revoked: ").data,
        (" (severity: " ++ e.severity ++ ")").data, ?_⟩
      simp [String.data_append, List.append_assoc]
    · refine ⟨("Skill '" ++ o.skillName ++ "' v" ++
        (o.versionOpt.getD skillEntry.latest) ++ " is revoked: " ++ e.reason ++
        " (severity: ").data, (")").data, ?_⟩
      simp [String.data_append, List.append_assoc]

def c3rev : RevocationEntryT := ⟨"s", "1.0.0", "bad", "2024-02-02", "critical"⟩

def c3list : SignedRevocationListT := ⟨[c3rev], "rsig"⟩

def c3opts : InstallOptionsT :=
  ⟨"s", none, c1index, "pk", fun _ => .ok [], [strBytes "skills"], some c3list, none⟩

/-- Witness for `revoked_install_rejected`: the revoked skill of the spec's
scenario, checked on a concrete catalog and revocation list. -/
theorem revoked_install_rejected_witness :
    (installSkill c1P c3opts c1fsEmpty).1.success = false
    ∧ (installSkill c1P c3opts c1fsEmpty).2 = []
    ∧ ∃ e ∈ c3list.entries, e.name = c3opts.skillName
      ∧ e.version = c3opts.versionOpt.getD c1entry.latest
      ∧ e.reason.data <:+: ((installSkill c1P c3opts c1fsEmpty).1.error.getD "").data
      ∧ e.severity.data <:+: ((installSkill c1P c3opts c1fsEmpty).1.error.getD "").data :=
  revoked_install_rejected c1P c3opts c1fsEmpty c1entry c1ver c3list (by rfl) (by rfl) rfl
    ⟨c3rev, by simp [c3list], rfl, rfl⟩


structure UpdateCheckResultT where
  skillName : String
  currentVersion : String
  latestVersion : String
  hasUpdate : Bool
deriving DecidableEq

structure UpdateOptionsT where
  skillName : String
  index : SignedCatalogIndexT
  publicKeyBase64 : String
  fetchArchive : String → Except String (List Nat)
  skillsDir : PathC
  source : Option String

/-- Model of `checkForUpdate`: read the sidecar, look the skill up in the
index; `hasUpdate` is plain string disequality `latest !== version`. -/
def checkForUpdate (skillName : String) (skillsDir : PathC) (index : SignedCatalogIndexT)
    (fs : FS) : UpdateCheckResultT :=
  let installDir := skillsDir ++ [strBytes skillName]
  match readMetadata installDir fs with
  | none =>
    ⟨skillName, "not installed",
      ((index.skills.find? (fun s => s.name == skillName)).map (fun e => e.latest)).getD
        "unknown", false⟩
  | some metadata =>
    match index.skills.find? (fun s => s.name == skillName) with
    | none => ⟨skillName, metadata.version, "unknown", false⟩
    | some indexEntry =>
      ⟨skillName, metadata.version, indexEntry.latest,
        !(indexEntry.latest == metadata.version)⟩

/-- Model of `updateSkill`: check for an update and return early without
touching anything when there is none; otherwise remember config.yaml, remove
the directory, reinstall the index version, and restore the config bytes on
success.  `rm` with force cannot fail in the model, so the source's
rm-failure return is not represented. -/
def updateSkill (P : InstallParams) (o : UpdateOptionsT) (fs : FS) :
    InstallResultT × List FsOp :=
  let installDir := o.skillsDir ++ [strBytes o.skillName]
  let updateCheck := checkForUpdate o.skillName o.skillsDir o.index fs
  if updateCheck.hasUpdate = false then
    (⟨false, o.skillName, updateCheck.currentVersion, installDir,
      some (if updateCheck.currentVersion == "not installed" then
        "Skill '" ++ o.skillName ++ "' is not installed"
      else
        "Skill '" ++ o.skillName ++ "' is already at the latest version (" ++
          updateCheck.currentVersion ++ ")")⟩, [])
  else
    let configPath := installDir ++ [strBytes "config.yaml"]
    let existingConfigYaml := fs configPath
    let fs1 := applyOp fs (.rmTree installDir)
    let res := installSkill P ⟨o.skillName, none, o.index, o.publicKeyBase64,
      o.fetchArchive, o.skillsDir, none, o.source⟩ fs1
    let tr := FsOp.rmTree installDir :: res.2
    if res.1.success = false then (res.1, tr)
    else
      match existingConfigYaml with
      | none => (res.1, tr)
      | some cfg => (res.1, tr ++ [.write configPath cfg])

def c8meta : KithkitMetadataT := ⟨"s", "2.0.0", "src", "h", "sig", "t0", "community"⟩

/-- A file system on which skill `s` v2.0.0 is installed — newer than the
catalog's latest 1.0.0. -/
def c8fs : FS := fun q => if q = c1dir ++ [METADATA_FILENAME] then some (.meta c8meta) else none

def c8opts : UpdateOptionsT :=
  ⟨"s", c1index, "pk", fun _ => .error "down", [strBytes "skills"], none⟩

/-- C8 counterexample: with v2.0.0 installed and the index's latest at
1.0.0 — the latest is *not newer* — `hasUpdate` is still true, because the
code compares with `latest !== version`, not an ordering.  `updateSkill`
therefore removes the installed skill and attempts a downgrade; here the
fetch fails, and the result carries the index version 1.0.0 rather than the
installed 2.0.0, with the sidecar gone.  The claim's "including when the
installed version is newer than the latest" is false; only the
equal-versions case short-circuits (`update_at_latest_no_op`). -/
theorem stale_update_modifies_counterexample :
    (checkForUpdate "s" [strBytes "skills"] c1index c8fs).latestVersion = "1.0.0"
    ∧ (readMetadata c1dir c8fs).map (fun m => m.version) = some "2.0.0"
    ∧ (updateSkill c1P c8opts c8fs).1.success = false
    ∧ (updateSkill c1P c8opts c8fs).1.version ≠ c8meta.version
    ∧ applyOps c8fs (updateSkill c1P c8opts c8fs).2 (c1dir ++ [METADATA_FILENAME]) = none :=
  ⟨rfl, rfl, rfl, by decide, rfl⟩

/-- C8 (amended): when the installed version *equals* the index's latest,
`updateSkill` returns a non-success result carrying the current installed
version and performs no operation, leaving the file system unchanged. -/
theorem update_at_latest_no_op (P : InstallParams) (o : UpdateOptionsT) (fs : FS)
    (m : KithkitMetadataT) (entry : SkillEntryT)
    (hmeta : readMetadata (o.skillsDir ++ [strBytes o.skillName]) fs = some m)
    (hfind : o.index.skills.find? (fun s => s.name == o.skillName) = some entry)
    (hlatest : entry.latest = m.version) :
    (updateSkill P o fs).1.success = false
    ∧ (updateSkill P o fs).1.version = m.version
    ∧ (updateSkill P o fs).2 = []
    ∧ applyOps fs (updateSkill P o fs).2 = fs := by
  simp only [updateSkill, checkForUpdate, hmeta, hfind, hlatest, beq_self_eq_true,
    Bool.not_true, eq_self_iff_true, if_true]
  exact ⟨trivial, trivial, trivial, rfl⟩

def c8opts2 : UpdateOptionsT :=
  ⟨"s", c1index, "pk", fun _ => .ok [], [strBytes "skills"], none⟩

/-- Witness for `update_at_latest_no_op`: skill `s` installed at 1.0.0 with
the catalog latest also 1.0.0. -/
theorem update_at_latest_no_op_witness :
    (updateSkill c1P c8opts2 c1fs).1.success = false
    ∧ (updateSkill c1P c8opts2 c1fs).1.version = c1meta.version
    ∧ (updateSkill c1P c8opts2 c1fs).2 = []
    ∧ applyOps c1fs (updateSkill c1P c8opts2 c1fs).2 = c1fs :=
  update_at_latest_no_op c1P c8opts2 c1fs c1meta c1entry rfl rfl rfl


/-- A security pattern: the regular expression is abstracted to its match
predicate `test`, with `src` standing for `pattern.source`. -/
structure SecurityPatternT where
  id : String
  description : String
  test : String → Bool
  src : String
  severity : String
  multiline : Bool

structure FindingT where
  severity : String
  check : String
  message : String
  file : Option String
  line : Option Nat
  pattern : Option String
deriving DecidableEq

structure CheckResultT where
  pass : Bool
  findings : List FindingT

def TEXT_FILES : List String := ["SKILL.md", "reference.md", "CHANGELOG.md"]

/-- JS `\s` whitespace, restricted to the code points the repo's text files
use; the exact class does not matter to the claims, which quantify over the
normalized content. -/
def isJsWs (c : Char) : Bool :=
  c = ' ' || c = '\t' || c = '\n' || c = '\x0d' || c = '\x0b' || c = '\x0c'

/-- `content.replace(/\s+/g, ' ')`: each maximal whitespace run becomes one
space.  The boolean argument records whether the previous character was part
of a run. -/
def collapseWsAux : Bool → List Char → List Char
  | _, [] => []
  | prevWs, c :: r =>
    if isJsWs c then
      (if prevWs then collapseWsAux true r else ' ' :: collapseWsAux true r)
    else c :: collapseWsAux false r

def normalizeWhitespace (s : String) : String := ⟨collapseWsAux false s.data⟩

/-- `content.split(sep)` on characters. -/
def splitCharAux (sep : Char) : List Char → List Char → List (List Char)
  | acc, [] => [acc.reverse]
  | acc, c :: r =>
    if c = sep then acc.reverse :: splitCharAux sep [] r else splitCharAux sep (c :: acc) r

def splitLines (s : String) : List String :=
  (splitCharAux '\n' [] s.data).map (fun l => ⟨l⟩)

/-- The single-line base id: strip one trailing "-multiline" suffix if present. -/
def stripMl (id : String) : String :=
  if strEndsWith id "-multiline" then ⟨id.data.take (id.data.length - 10)⟩ else id

def lineFinding (p : SecurityPatternT) (file : String) (n : Nat) : FindingT :=
  ⟨p.severity, "security/" ++ p.id, p.description, some file, some n, some p.src⟩

/-- A multi-line finding: same shape, but no line number. -/
def mlFinding (p : SecurityPatternT) (file : String) : FindingT :=
  ⟨p.severity, "security/" ++ p.id, p.description, some file, none, some p.src⟩

/-- Pass 1 of `checkSecurity`: per line (1-based), per single-line pattern. -/
def lineFindingsAux (file : String) (linePats : List SecurityPatternT) :
    Nat → List String → List FindingT
  | _, [] => []
  | i, line :: rest =>
    ((linePats.filter (fun p => p.test line)).map (fun p => lineFinding p file (i + 1)))
      ++ lineFindingsAux file linePats (i + 1) rest

def lineFindings (file : String) (linePats : List SecurityPatternT)
    (lines : List String) : List FindingT :=
  lineFindingsAux file linePats 0 lines

/-- The `alreadyCaught` test of pass 2: a finding for the same file whose
check equals `security/` plus the base id. -/
def baseCaught (file baseId : String) (findings : List FindingT) : Bool :=
  findings.any (fun f => f.file == some file && f.check == "security/" ++ baseId)

/-- One multi-line pattern of pass 2: on a hit, push a line-less finding
unless the base id was already caught for this file. -/
def mlStep (file normalized : String) (findings : List FindingT)
    (p : SecurityPatternT) : List FindingT :=
  if p.test normalized then
    if baseCaught file (stripMl p.id) findings then findings
    else findings ++ [mlFinding p file]
  else findings

/-- Per-file body of `checkSecurity`: skip missing files, run pass 1 over
the lines, then pass 2 over the whitespace-normalized content. -/
def fileStep (pats : List SecurityPatternT) (readF : String → Option String)
    (findings : List FindingT) (file : String) : List FindingT :=
  match readF file with
  | none => findings
  | some content =>
    (pats.filter (fun p => p.multiline)).foldl
      (mlStep file (normalizeWhitespace content))
      (findings ++ lineFindings file (pats.filter (fun p => !p.multiline)) (splitLines content))

def checkSecurityFiles (pats : List SecurityPatternT) (readF : String → Option String)
    (files : List String) : CheckResultT :=
  let findings := files.foldl (fileStep pats readF) []
  ⟨!(findings.any (fun f => f.severity == "error")), findings⟩

/-- Model of `checkSecurity`: the pattern library and the file reader are
parameters; `readF file` is the content of `\x7bskillDir\x7d/file` when it
exists. -/
def checkSecurity (pats : List SecurityPatternT) (readF : String → Option String) :
    CheckResultT :=
  checkSecurityFiles pats readF TEXT_FILES

theorem strApp_left_cancel (s a b : String) (h : s ++ a = s ++ b) : a = b := by
  have hd := congrArg String.data h
  simp only [String.data_append] at hd
  exact congrArg String.mk (List.append_cancel_left hd)

theorem ml_id_ne {q : SecurityPatternT} {b : String}
    (hq : strEndsWith q.id "-multiline" = true)
    (hb : strEndsWith b "-multiline" = false) :
    ("security/" ++ q.id == "security/" ++ b) = false := by
  rw [beq_eq_false_iff_ne]
  intro h
  have hid := strApp_left_cancel _ _ _ h
  rw [hid] at hq
  simp [hq] at hb

theorem mlStep_baseCaught (file n b : String) (acc : List FindingT) (q : SecurityPatternT)
    (hq : strEndsWith q.id "-multiline" = true)
    (hb : strEndsWith b "-multiline" = false) :
    baseCaught file b (mlStep file n acc q) = baseCaught file b acc := by
  unfold mlStep
  split
  · split
    · rfl
    · simp only [baseCaught, List.any_append, List.any_cons, List.any_nil,
        Bool.or_false, mlFinding]
      rw [ml_id_ne hq hb]
      simp
  · rfl

theorem mlFold_baseCaught (file n b : String) :
    ∀ (mpats : List SecurityPatternT) (acc : List FindingT),
      (∀ q ∈ mpats, strEndsWith q.id "-multiline" = true) →
      strEndsWith b "-multiline" = false →
      baseCaught file b (mpats.foldl (mlStep file n) acc) = baseCaught file b acc := by
  intro mpats
  induction mpats with
  | nil => intro acc _ _; rfl
  | cons q rest ih =>
    intro acc hq hb
    rw [List.foldl_cons, ih _ (fun x hx => hq x (List.mem_cons_of_mem _ hx)) hb,
      mlStep_baseCaught file n b acc q (hq q (List.mem_cons_self _ _)) hb]

theorem mlFold_mono (file n : String) :
    ∀ (mpats : List SecurityPatternT) (acc : List FindingT) (f : FindingT),
      f ∈ acc → f ∈ mpats.foldl (mlStep file n) acc := by
  intro mpats
  induction mpats with
  | nil => intro acc f hf; exact hf
  | cons q rest ih =>
    intro acc f hf
    rw [List.foldl_cons]
    apply ih
    unfold mlStep
    split
    · split
      · exact hf
      · exact List.mem_append_left _ hf
    · exact hf

theorem mlFold_new (file n : String) :
    ∀ (mpats : List SecurityPatternT) (acc : List FindingT) (f : FindingT),
      f ∈ mpats.foldl (mlStep file n) acc →
      f ∈ acc ∨ ∃ q ∈ mpats, f = mlFinding q file := by
  intro mpats
  induction mpats with
  | nil => intro acc f hf; exact Or.inl hf
  | cons q rest ih =>
    intro acc f hf
    rw [List.foldl_cons] at hf
    rcases ih _ f hf with h | ⟨q2, hq2, he⟩
    · unfold mlStep at h
      split at h
      · split at h
        · exact Or.inl h
        · rcases List.mem_append.mp h with h2 | h2
          · exact Or.inl h2
          · exact Or.inr ⟨q, List.mem_cons_self _ _, List.mem_singleton.mp h2⟩
      · exact Or.inl h
    · exact Or.inr ⟨q2, List.mem_cons_of_mem _ hq2, he⟩

theorem mlFold_emit (file n : String) (p : SecurityPatternT)
    (hpt : p.test n = true) (hbp : strEndsWith (stripMl p.id) "-multiline" = false) :
    ∀ (mpats : List SecurityPatternT) (acc : List FindingT),
      (∀ q ∈ mpats, strEndsWith q.id "-multiline" = true) →
      p ∈ mpats →
      baseCaught file (stripMl p.id) acc = false →
      mlFinding p file ∈ mpats.foldl (mlStep file n) acc := by
  intro mpats
  induction mpats with
  | nil => intro acc _ hp _; exact absurd hp (List.not_mem_nil _)
  | cons q rest ih =>
    intro acc hq hp hbc
    rw [List.foldl_cons]
    rcases List.mem_cons.mp hp with he | hp2
    · subst he
      have hstep : mlStep file n acc p = acc ++ [mlFinding p file] := by
        unfold mlStep
        rw [if_pos hpt, if_neg (by simp [hbc])]
      rw [hstep]
      exact mlFold_mono file n rest _ _
        (List.mem_append_right _ (List.mem_singleton_self _))
    · apply ih _ (fun x hx => hq x (List.mem_cons_of_mem _ hx)) hp2
      rw [mlStep_baseCaught file n _ acc q (hq q (List.mem_cons_self _ _)) hbp]
      exact hbc

theorem mlFold_nomit (file n : String) (p : SecurityPatternT)
    (hbp : strEndsWith (stripMl p.id) "-multiline" = false) :
    ∀ (mpats : List SecurityPatternT) (acc : List FindingT),
      (∀ q ∈ mpats, strEndsWith q.id "-multiline" = true) →
      baseCaught file (stripMl p.id) acc = true →
      mlFinding p file ∉ acc →
      mlFinding p file ∉ mpats.foldl (mlStep file n) acc := by
  intro mpats
  induction mpats with
  | nil => intro acc _ _ hna; exact hna
  | cons q rest ih =>
    intro acc hq hbc hna
    rw [List.foldl_cons]
    apply ih _ (fun x hx => hq x (List.mem_cons_of_mem _ hx))
    · rw [mlStep_baseCaught file n _ acc q (hq q (List.mem_cons_self _ _)) hbp]
      exact hbc
    · unfold mlStep
      split
      · split
        · exact hna
        · rename_i hqc
          intro hmem
          rcases List.mem_append.mp hmem with h2 | h2
          · exact hna h2
          · have hePq : mlFinding p file = mlFinding q file := List.mem_singleton.mp h2
            have hch : "security/" ++ p.id = "security/" ++ q.id :=
              congrArg FindingT.check hePq
            have hid : p.id = q.id := strApp_left_cancel _ _ _ hch
            rw [← hid] at hqc
            exact hqc hbc
      · exact hna

theorem lineFindingsAux_tag (file : String) (lpats : List SecurityPatternT) :
    ∀ (i : Nat) (ls : List String) (f : FindingT), f ∈ lineFindingsAux file lpats i ls →
      f.file = some file ∧ f.line ≠ none := by
  intro i ls
  induction ls generalizing i with
  | nil => intro f hf; simp [lineFindingsAux] at hf
  | cons l rest ih =>
    intro f hf
    simp only [lineFindingsAux] at hf
    rcases List.mem_append.mp hf with h | h
    · rcases List.mem_map.mp h with ⟨q, _, he⟩
      subst he
      exact ⟨rfl, by simp [lineFinding]⟩
    · exact ih _ f h

theorem fileStep_mono (pats : List SecurityPatternT) (readF : String → Option String)
    (acc : List FindingT) (file : String) (f : FindingT) (hf : f ∈ acc) :
    f ∈ fileStep pats readF acc file := by
  unfold fileStep
  split
  · exact hf
  · exact mlFold_mono _ _ _ _ _ (List.mem_append_left _ hf)

theorem fileStep_new (pats : List SecurityPatternT) (readF : String → Option String)
    (acc : List FindingT) (file : String) (f : FindingT)
    (hf : f ∈ fileStep pats readF acc file) :
    f ∈ acc ∨ f.file = some file := by
  unfold fileStep at hf
  split at hf
  · exact Or.inl hf
  · rcases mlFold_new _ _ _ _ _ hf with h | ⟨q, _, he⟩
    · rcases List.mem_append.mp h with h2 | h2
      · exact Or.inl h2
      · exact Or.inr (lineFindingsAux_tag _ _ _ _ _ h2).1
    · subst he
      exact Or.inr rfl

theorem filesFold_mono (pats : List SecurityPatternT) (readF : String → Option String) :
    ∀ (files : List String) (acc : List FindingT) (f : FindingT), f ∈ acc →
      f ∈ files.foldl (fileStep pats readF) acc := by
  intro files
  induction files with
  | nil => intro acc f hf; exact hf
  | cons g rest ih =>
    intro acc f hf
    rw [List.foldl_cons]
    exact ih _ f (fileStep_mono _ _ _ _ _ hf)

theorem filesFold_new (pats : List SecurityPatternT) (readF : String → Option String)
    (file : String) :
    ∀ (files : List String) (acc : List FindingT), file ∉ files →
      ∀ f ∈ files.foldl (fileStep pats readF) acc, f ∈ acc ∨ f.file ≠ some file := by
  intro files
  induction files with
  | nil => intro acc _ f hf; exact Or.inl hf
  | cons g rest ih =>
    intro acc hnf f hf
    rw [List.foldl_cons] at hf
    have hgne : file ≠ g := fun h => hnf (h ▸ List.mem_cons_self _ _)
    rcases ih _ (fun h => hnf (List.mem_cons_of_mem _ h)) f hf with h | h
    · rcases fileStep_new _ _ _ _ _ h with h2 | h2
      · exact Or.inl h2
      · refine Or.inr ?_
        rw [h2]
        intro he
        exact hgne (Option.some.inj he).symm
    · exact Or.inr h

/-- C9: in `checkSecurity`, for a text file that exists and a multi-line
pattern that matches the whitespace-normalized content, the line-less
multi-line finding appears in the output exactly when the single-line pass
produced no finding for the same file whose check id is the pattern's id
with the "-multiline" suffix removed.  The two structural hypotheses hold of
the repository's pattern library: every multi-line pattern id ends in
"-multiline", and no base id does. -/
theorem multiline_dedup (pats : List SecurityPatternT) (readF : String → Option String)
    (file content : String) (p : SecurityPatternT)
    (hids : ∀ q ∈ pats, q.multiline = true → strEndsWith q.id "-multiline" = true)
    (hbase : ∀ q ∈ pats, q.multiline = true → strEndsWith (stripMl q.id) "-multiline" = false)
    (hfile : file ∈ TEXT_FILES)
    (hread : readF file = some content)
    (hp : p ∈ pats) (hpm : p.multiline = true)
    (hmatch : p.test (normalizeWhitespace content) = true) :
    mlFinding p file ∈ (checkSecurity pats readF).findings ↔
      ¬ ∃ f ∈ lineFindings file (pats.filter (fun q => !q.multiline)) (splitLines content),
        f.check = "security/" ++ stripMl p.id := by
  obtain ⟨pre, post, hsplit⟩ := List.append_of_mem hfile
  have hnodup : TEXT_FILES.Nodup := by decide
  rw [hsplit] at hnodup
  have hnpre : file ∉ pre := by
    intro hmem
    rcases List.nodup_append.mp hnodup with ⟨_, _, hdisj⟩
    exact hdisj hmem (List.mem_cons_self _ _)
  have hnpost : file ∉ post := by
    rcases List.nodup_append.mp hnodup with ⟨_, hcp, _⟩
    exact (List.nodup_cons.mp hcp).1
  have hbp : strEndsWith (stripMl p.id) "-multiline" = false := hbase p hp hpm
  have hpm2 : p ∈ pats.filter (fun q => q.multiline) := List.mem_filter.mpr ⟨hp, hpm⟩
  have hq2 : ∀ q ∈ pats.filter (fun q => q.multiline),
      strEndsWith q.id "-multiline" = true := by
    intro q hq
    have hm := List.mem_filter.mp hq
    exact hids q hm.1 hm.2
  have hA0file : ∀ f ∈ pre.foldl (fileStep pats readF) [], f.file ≠ some file := by
    intro f hf
    rcases filesFold_new pats readF file pre [] hnpre f hf with h | h
    · simp at h
    · exact h
  have hfindings : (checkSecurity pats readF).findings =
      post.foldl (fileStep pats readF)
        (fileStep pats readF (pre.foldl (fileStep pats readF) []) file) := by
    simp only [checkSecurity, checkSecurityFiles]
    rw [hsplit, List.foldl_append, List.foldl_cons]
  have hA1 : fileStep pats readF (pre.foldl (fileStep pats readF) []) file =
      (pats.filter (fun q => q.multiline)).foldl
        (mlStep file (normalizeWhitespace content))
        (pre.foldl (fileStep pats readF) [] ++
          lineFindings file (pats.filter (fun q => !q.multiline)) (splitLines content)) := by
    unfold fileStep
    rw [hread]
  have hS0 : baseCaught file (stripMl p.id)
      (pre.foldl (fileStep pats readF) [] ++
        lineFindings file (pats.filter (fun q => !q.multiline)) (splitLines content)) = true ↔
      ∃ f ∈ lineFindings file (pats.filter (fun q => !q.multiline)) (splitLines content),
        f.check = "security/" ++ stripMl p.id := by
    unfold baseCaught
    rw [List.any_append, Bool.or_eq_true]
    constructor
    · rintro (h | h)
      · rw [List.any_eq_true] at h
        obtain ⟨f, hf, hpred⟩ := h
        rw [Bool.and_eq_true, beq_iff_eq, beq_iff_eq] at hpred
        exact absurd hpred.1 (hA0file f hf)
      · rw [List.any_eq_true] at h
        obtain ⟨f, hf, hpred⟩ := h
        rw [Bool.and_eq_true, beq_iff_eq, beq_iff_eq] at hpred
        exact ⟨f, hf, hpred.2⟩
    · rintro ⟨f, hf, hc⟩
      right
      rw [List.any_eq_true]
      refine ⟨f, hf, ?_⟩
      rw [Bool.and_eq_true, beq_iff_eq, beq_iff_eq]
      exact ⟨(lineFindingsAux_tag file _ 0 _ f hf).1, hc⟩
  have hnotin : mlFinding p file ∉
      (pre.foldl (fileStep pats readF) [] ++
        lineFindings file (pats.filter (fun q => !q.multiline)) (splitLines content)) := by
    intro hmem
    rcases List.mem_append.mp hmem with h | h
    · exact hA0file _ h rfl
    · exact (lineFindingsAux_tag file _ 0 _ _ h).2 rfl
  rw [hfindings]
  cases hbc : baseCaught file (stripMl p.id)
      (pre.foldl (fileStep pats readF) [] ++
        lineFindings file (pats.filter (fun q => !q.multiline)) (splitLines content)) with
  | true =>
    have hnot1 : mlFinding p file ∉
        fileStep pats readF (pre.foldl (fileStep pats readF) []) file := by
      rw [hA1]
      exact mlFold_nomit file _ p hbp _ _ hq2 hbc hnotin
    constructor
    · intro hmem
      rcases filesFold_new pats readF file post _ hnpost _ hmem with h | h
      · exact absurd h hnot1
      · exact absurd rfl h
    · intro hnex
      exact absurd (hS0.mp hbc) hnex
  | false =>
    constructor
    · intro _ hex
      rw [hS0.mpr hex] at hbc
      simp at hbc
    · intro _
      apply filesFold_mono pats readF post _ _
      rw [hA1]
      exact mlFold_emit file _ p hmatch hbp _ _ hq2 hpm2 hbc

def c9lp : SecurityPatternT :=
  ⟨"evil", "Evil text", fun s => s == "evil", "evil", "error", false⟩

def c9mp : SecurityPatternT :=
  ⟨"evil-multiline", "Evil text", fun s => s == "a evil b", "evil", "error", true⟩

def c9pats : List SecurityPatternT := [c9lp, c9mp]

def c9read : String → Option String :=
  fun f => if f == "SKILL.md" then some "a\nevil b" else none

/-- Witness for `multiline_dedup`: a two-pattern library on a SKILL.md whose
match spans a line break, so only the multi-line rule fires. -/
theorem multiline_dedup_witness :
    mlFinding c9mp "SKILL.md" ∈ (checkSecurity c9pats c9read).findings ↔
      ¬ ∃ f ∈ lineFindings "SKILL.md" (c9pats.filter (fun q => !q.multiline))
          (splitLines "a\nevil b"),
        f.check = "security/" ++ stripMl c9mp.id :=
  multiline_dedup c9pats c9read "SKILL.md" "a\nevil b" c9mp (by decide) (by decide)
    (by decide) rfl (List.mem_cons_of_mem _ (List.mem_cons_self _ _)) rfl rfl

end Kithkit
